import Mathlib

/-!
# Verification of the deepgraph core against its specification

A shallow embedding of the deepgraph property-graph database core
(storage engine, WAL recovery, MVCC visibility, deadlock detector,
secondary indices, query executor), translated from the Rust sources,
together with theorems settling the specification claims.

Modelling conventions:
* UUID-based `NodeId`/`EdgeId` values are modelled as `Nat` (opaque ids);
  where the code serialises an id to 16 bytes, `encodeId16` produces the
  corresponding little-endian byte list.
* Rust `u64` transaction ids, timestamps and LSNs are modelled as `Nat`
  (the claims only compare them, no wrapping arithmetic occurs).
* Rust `i64` property integers are modelled as `Int`; the claims under
  study are about which variant results, not about wrap-around.
* IEEE-754 `f64` is modelled by `Rat`: the claims under study concern the
  routing between `Integer`/`Float` variants and the `== 0.0` test, which
  the rational carrier preserves.
* `DashMap`/`HashMap` maps are modelled as association lists (insert
  replaces the key's entry, removal drops it); `HashSet` as a
  duplicate-free list.
-/

set_option maxHeartbeats 1000000

namespace DeepGraph

/-- Property values (`graph.rs::PropertyValue`); `Float` is carried by `Rat`. -/
inductive PropertyValue where
  | string (s : String)
  | integer (i : Int)
  | float (f : Rat)
  | boolean (b : Bool)
  | null
  | list (xs : List PropertyValue)
  | map (m : List (String × PropertyValue))

/-- A graph node (`graph.rs::Node`). -/
structure Node where
  id : Nat
  labels : List String
  properties : List (String × PropertyValue)

/-- A graph edge (`graph.rs::Edge`). -/
structure Edge where
  id : Nat
  from_ : Nat
  to_ : Nat
  relationship_type : String
  properties : List (String × PropertyValue)

/-- The error enumeration (`error.rs::DeepGraphError`). -/
inductive DeepGraphError where
  | NodeNotFound (s : String)
  | EdgeNotFound (s : String)
  | NotFound (s : String)
  | PropertyNotFound (s : String)
  | InvalidNodeId (s : String)
  | InvalidEdgeId (s : String)
  | StorageError (s : String)
  | TransactionError (s : String)
  | ParserError (s : String)
  | InvalidOperation (s : String)
  | InvalidPropertyType (expected actual : String)
  | IoError (s : String)
  | SerializationError (s : String)
  | JsonError (s : String)
  | Unknown (s : String)
  deriving DecidableEq

/-- `Result<T>` of the Rust code. -/
abbrev DGResult (α : Type) := Except DeepGraphError α

section AssocMap

variable {κ : Type} [DecidableEq κ] {α : Type}

/-- Map lookup (`DashMap::get`). -/
def mapLookup (m : List (κ × α)) (k : κ) : Option α :=
  match m with
  | [] => none
  | (k', v) :: rest => if k' = k then some v else mapLookup rest k

/-- Map insert with replace (`DashMap::insert`). -/
def mapInsert (m : List (κ × α)) (k : κ) (v : α) : List (κ × α) :=
  match m with
  | [] => [(k, v)]
  | (k', v') :: rest =>
      if k' = k then (k, v) :: rest else (k', v') :: mapInsert rest k v

/-- Map removal (`DashMap::remove`); drops every entry for the key, which on
the duplicate-free states the code produces is the single entry. -/
def mapRemove (m : List (κ × α)) (k : κ) : List (κ × α) :=
  match m with
  | [] => []
  | (k', v') :: rest =>
      if k' = k then mapRemove rest k else (k', v') :: mapRemove rest k

/-- Key membership (`DashMap::contains_key`). -/
def mapContains (m : List (κ × α)) (k : κ) : Bool :=
  (mapLookup m k).isSome

end AssocMap

/-! ## In-memory storage backend (`storage/memory.rs::MemoryStorage`) -/

/-- The in-memory backend state: node map, edge map, adjacency indices. -/
structure MemoryStorage where
  nodes : List (Nat × Node)
  edges : List (Nat × Edge)
  outgoing_edges : List (Nat × List Nat)
  incoming_edges : List (Nat × List Nat)

namespace MemoryStorage

/-- `MemoryStorage::new` — the empty storage. -/
def new : MemoryStorage := ⟨[], [], [], []⟩

/-- `MemoryStorage::node_count`. -/
def node_count (s : MemoryStorage) : Nat := s.nodes.length

/-- `MemoryStorage::edge_count`. -/
def edge_count (s : MemoryStorage) : Nat := s.edges.length

/-- `MemoryStorage::add_node`: unconditional insert keyed by the node's id. -/
def add_node (s : MemoryStorage) (node : Node) : DGResult (Nat × MemoryStorage) :=
  .ok (node.id, { s with nodes := mapInsert s.nodes node.id node })

/-- `MemoryStorage::get_node`. -/
def get_node (s : MemoryStorage) (id : Nat) : DGResult Node :=
  match mapLookup s.nodes id with
  | some n => .ok n
  | none => .error (.NodeNotFound (toString id))

/-- `MemoryStorage::update_node`. -/
def update_node (s : MemoryStorage) (node : Node) : DGResult MemoryStorage :=
  if mapContains s.nodes node.id then
    .ok { s with nodes := mapInsert s.nodes node.id node }
  else
    .error (.NodeNotFound (toString node.id))

/-- Remove each edge id of `ids` from the edge map (the cascade loops of
`delete_node`). -/
def removeEdges (edges : List (Nat × Edge)) (ids : List Nat) : List (Nat × Edge) :=
  match ids with
  | [] => edges
  | id :: rest => removeEdges (mapRemove edges id) rest

/-- `MemoryStorage::delete_node`: remove the node, then delete every edge
listed in its outgoing and incoming adjacency entries (which are removed
whole). Note the code does not touch the adjacency entries of the other
endpoints of the cascaded edges. -/
def delete_node (s : MemoryStorage) (id : Nat) : DGResult MemoryStorage :=
  match mapLookup s.nodes id with
  | none => .error (.NodeNotFound (toString id))
  | some _ =>
      let s₁ : MemoryStorage := { s with nodes := mapRemove s.nodes id }
      let outIds := (mapLookup s₁.outgoing_edges id).getD []
      let s₂ : MemoryStorage := { s₁ with
        outgoing_edges := mapRemove s₁.outgoing_edges id,
        edges := removeEdges s₁.edges outIds }
      let inIds := (mapLookup s₂.incoming_edges id).getD []
      let s₃ : MemoryStorage := { s₂ with
        incoming_edges := mapRemove s₂.incoming_edges id,
        edges := removeEdges s₂.edges inIds }
      .ok s₃

/-- `MemoryStorage::add_edge`: verify both endpoints, insert the edge, and
push its id on the `outgoing`/`incoming` adjacency vectors. -/
def add_edge (s : MemoryStorage) (edge : Edge) : DGResult (Nat × MemoryStorage) :=
  if ¬ mapContains s.nodes edge.from_ then
    .error (.NodeNotFound (toString edge.from_))
  else if ¬ mapContains s.nodes edge.to_ then
    .error (.NodeNotFound (toString edge.to_))
  else
    let s₁ : MemoryStorage := { s with edges := mapInsert s.edges edge.id edge }
    let outList := (mapLookup s₁.outgoing_edges edge.from_).getD []
    let s₂ : MemoryStorage := { s₁ with
      outgoing_edges := mapInsert s₁.outgoing_edges edge.from_ (outList ++ [edge.id]) }
    let inList := (mapLookup s₂.incoming_edges edge.to_).getD []
    let s₃ : MemoryStorage := { s₂ with
      incoming_edges := mapInsert s₂.incoming_edges edge.to_ (inList ++ [edge.id]) }
    .ok (edge.id, s₃)

/-- `MemoryStorage::get_edge`. -/
def get_edge (s : MemoryStorage) (id : Nat) : DGResult Edge :=
  match mapLookup s.edges id with
  | some e => .ok e
  | none => .error (.EdgeNotFound (toString id))

/-- `MemoryStorage::delete_edge`: remove the edge and filter its id out of
the two adjacency entries of its endpoints. -/
def delete_edge (s : MemoryStorage) (id : Nat) : DGResult MemoryStorage :=
  match mapLookup s.edges id with
  | none => .error (.EdgeNotFound (toString id))
  | some edge =>
      let s₁ : MemoryStorage := { s with edges := mapRemove s.edges id }
      let s₂ : MemoryStorage :=
        match mapLookup s₁.outgoing_edges edge.from_ with
        | some lst =>
            { s₁ with outgoing_edges :=
                mapInsert s₁.outgoing_edges edge.from_ (lst.filter (fun eid => eid ≠ id)) }
        | none => s₁
      let s₃ : MemoryStorage :=
        match mapLookup s₂.incoming_edges edge.to_ with
        | some lst =>
            { s₂ with incoming_edges :=
                mapInsert s₂.incoming_edges edge.to_ (lst.filter (fun eid => eid ≠ id)) }
        | none => s₂
      .ok s₃

/-- `MemoryStorage::get_outgoing_edges`: dangling adjacency ids are dropped
by the `filter_map` over the edge map. -/
def get_outgoing_edges (s : MemoryStorage) (node_id : Nat) : DGResult (List Edge) :=
  if ¬ mapContains s.nodes node_id then
    .error (.NodeNotFound (toString node_id))
  else
    .ok (((mapLookup s.outgoing_edges node_id).getD []).filterMap
          (fun id => mapLookup s.edges id))

/-- `MemoryStorage::get_incoming_edges`. -/
def get_incoming_edges (s : MemoryStorage) (node_id : Nat) : DGResult (List Edge) :=
  if ¬ mapContains s.nodes node_id then
    .error (.NodeNotFound (toString node_id))
  else
    .ok (((mapLookup s.incoming_edges node_id).getD []).filterMap
          (fun id => mapLookup s.edges id))

end MemoryStorage

/-! ## Operation sequences over the in-memory backend (claim C3) -/

/-- The mutations of the claim: `add_node`, `add_edge`, `delete_edge`,
`delete_node`. -/
inductive StorageOp where
  | addNode (n : Node)
  | addEdge (e : Edge)
  | deleteEdge (id : Nat)
  | deleteNode (id : Nat)

namespace MemoryStorage

/-- Apply one operation, keeping only the state. -/
def applyOp (s : MemoryStorage) (op : StorageOp) : DGResult MemoryStorage :=
  match op with
  | .addNode n =>
      match add_node s n with
      | .ok (_, s₁) => .ok s₁
      | .error err => .error err
  | .addEdge e =>
      match add_edge s e with
      | .ok (_, s₁) => .ok s₁
      | .error err => .error err
  | .deleteEdge id => delete_edge s id
  | .deleteNode id => delete_node s id

/-- Run a sequence of operations; `none` as soon as one fails. -/
def runOps (s : MemoryStorage) : List StorageOp → Option MemoryStorage
  | [] => some s
  | op :: rest =>
      match applyOp s op with
      | .ok s₁ => runOps s₁ rest
      | .error _ => none

/-- An edge id nowhere in the storage: not an edge-map key and dangling in
no adjacency list (the global uniqueness UUID generation provides). -/
def idFresh (s : MemoryStorage) (eid : Nat) : Bool :=
  ! mapContains s.edges eid &&
  s.outgoing_edges.all (fun kv => ! kv.2.contains eid) &&
  s.incoming_edges.all (fun kv => ! kv.2.contains eid)

/-- Run a sequence checking that every added edge has a globally fresh id
and that every operation succeeds. -/
def freshRun (s : MemoryStorage) : List StorageOp → Bool
  | [] => true
  | op :: rest =>
      (match op with
       | .addEdge e => idFresh s e.id
       | _ => true) &&
      match applyOp s op with
      | .ok s₁ => freshRun s₁ rest
      | .error _ => false

/-- The adjacency-index invariant that survives `delete_node`: every stored
edge's id is listed under its endpoints, and every adjacency entry that
refers to a stored edge refers to one with the matching endpoint.
(Exactness fails: dangling ids of cascaded edges may remain.) -/
def AdjacencyInv (s : MemoryStorage) : Prop :=
  (∀ id e, mapLookup s.edges id = some e →
      id ∈ (mapLookup s.outgoing_edges e.from_).getD [] ∧
      id ∈ (mapLookup s.incoming_edges e.to_).getD []) ∧
  (∀ n id, id ∈ (mapLookup s.outgoing_edges n).getD [] →
      ∀ e, mapLookup s.edges id = some e → e.from_ = n) ∧
  (∀ n id, id ∈ (mapLookup s.incoming_edges n).getD [] →
      ∀ e, mapLookup s.edges id = some e → e.to_ = n)

end MemoryStorage

/-! ## MVCC snapshots and version chains (`mvcc/snapshot.rs`, `mvcc/version.rs`) -/

/-- A snapshot (`Snapshot`): timestamp plus the set of active transaction
ids at snapshot time. -/
structure Snapshot where
  timestamp : Nat
  active_txns : List Nat

namespace Snapshot

/-- `Snapshot::is_txn_visible`: the transaction id must be below the
snapshot timestamp and not in the active set. -/
def is_txn_visible (s : Snapshot) (txn_id : Nat) : Bool :=
  if s.timestamp ≤ txn_id then false
  else ! s.active_txns.contains txn_id

/-- `Snapshot::is_version_visible`: creator visible, deleter (if any) not
visible. -/
def is_version_visible (s : Snapshot) (xmin : Nat) (xmax : Option Nat) : Bool :=
  if ! s.is_txn_visible xmin then false
  else
    match xmax with
    | some x => if s.is_txn_visible x then false else true
    | none => true

end Snapshot

/-- A versioned data item (`Version<T>`). -/
structure Version (T : Type) where
  data : T
  xmin : Nat
  xmax : Option Nat
  created_at : Nat
  deleted_at : Option Nat

namespace Version

/-- `Version::is_visible`: purely timestamp-based — created at or before the
snapshot timestamp, and not deleted at or before it. -/
def is_visible {T : Type} (v : Version T) (snapshot_ts : Nat) : Bool :=
  if snapshot_ts < v.created_at then false
  else
    match v.deleted_at with
    | some d => if d ≤ snapshot_ts then false else true
    | none => true

end Version

namespace VersionChain

/-- `VersionChain::add_version`: new versions are inserted at the front
(newest first). -/
def add_version {T : Type} (versions : List (Version T)) (v : Version T) :
    List (Version T) :=
  v :: versions

/-- `VersionChain::get_visible_version`: scan the (newest-first) version
list and return the data of the first version passing `Version::is_visible`. -/
def get_visible_version {T : Type} (versions : List (Version T)) (snapshot_ts : Nat) :
    Option T :=
  match versions with
  | [] => none
  | v :: rest =>
      if v.is_visible snapshot_ts then some v.data
      else get_visible_version rest snapshot_ts

end VersionChain

/-- The visibility formula exactly as the specification words it
(`xmin(V) < T` and `xmin(V) ∉ active` and (`xmax(V) = ⊥` or `xmax(V) ≥ T`
or `xmax(V) ∈ active`)), to be compared against the code's checks. -/
def specVisibilityFormula {T : Type} (s : Snapshot) (v : Version T) : Prop :=
  v.xmin < s.timestamp ∧ v.xmin ∉ s.active_txns ∧
    (v.xmax = none ∨ ∃ x, v.xmax = some x ∧ (s.timestamp ≤ x ∨ x ∈ s.active_txns))

/-! ## Deadlock detector (`mvcc/deadlock.rs::DeadlockDetector`) -/

/-- `HashSet::insert` on a duplicate-free list. -/
def insertNew (l : List Nat) (x : Nat) : List Nat :=
  if x ∈ l then l else x :: l

/-- The adjacency of the wait-for graph: the set a transaction waits for
(empty when the map has no entry). -/
def adjOf (g : List (Nat × List Nat)) (t : Nat) : List Nat :=
  (mapLookup g t).getD []

/-- The wait-for graph and lock-holder table. -/
structure DeadlockDetector where
  wait_for : List (Nat × List Nat)
  lock_holders : List (Nat × Nat)

/-- The outcome of `request_lock` (`Ok(())`, the Deadlock transaction
error, or the Contended "resource locked" transaction error). -/
inductive LockOutcome where
  | ok
  | deadlock (txn holder : Nat)
  | contended (holder : Nat)
  deriving DecidableEq

namespace DeadlockDetector

/-- `DeadlockDetector::new`. -/
def new : DeadlockDetector := ⟨[], []⟩

/-- The neighbour loop of `dfs_cycle_check`: unvisited neighbours are
explored recursively (through `rec`, the fuelled recursive call), visited
neighbours on the recursion stack are back edges. -/
def dfsNeighborLoop
    (rec : Nat → List Nat → List Nat → Option (Bool × List Nat × List Nat)) :
    List Nat → List Nat → List Nat → Option (Bool × List Nat × List Nat)
  | [], visited, recStack => some (false, visited, recStack)
  | n :: ns, visited, recStack =>
      if n ∉ visited then
        match rec n visited recStack with
        | none => none
        | some (true, v2, r2) => some (true, v2, r2)
        | some (false, v2, r2) => dfsNeighborLoop rec ns v2 r2
      else if n ∈ recStack then some (true, visited, recStack)
      else dfsNeighborLoop rec ns visited recStack

/-- `DeadlockDetector::dfs_cycle_check`: mark the node visited and on the
stack, explore its wait-for set, then pop it from the stack. The Rust
recursion terminates because `visited` only grows; the model makes that
explicit with fuel, shown sufficient below. -/
def dfs_cycle_check (g : List (Nat × List Nat)) :
    Nat → Nat → List Nat → List Nat → Option (Bool × List Nat × List Nat)
  | 0, _, _, _ => none
  | fuel + 1, node, visited, recStack =>
      match dfsNeighborLoop (dfs_cycle_check g fuel) (adjOf g node)
          (insertNew visited node) (insertNew recStack node) with
      | none => none
      | some (true, v2, r2) => some (true, v2, r2)
      | some (false, v2, r2) => some (false, v2, r2.erase node)

/-- The nodes occurring in the wait-for graph (keys and targets). -/
def nodeSet (g : List (Nat × List Nat)) : List Nat :=
  g.map Prod.fst ++ (g.map Prod.snd).flatten

/-- `DeadlockDetector::has_cycle`: DFS from `start` with empty visited set
and recursion stack. -/
def has_cycle (g : List (Nat × List Nat)) (start : Nat) : Bool :=
  match dfs_cycle_check g ((nodeSet g).length + 1) start [] [] with
  | some (b, _, _) => b
  | none => false

/-- Adding the wait-for edge `txn → holder`
(`wait_for.entry(txn).or_insert_with(HashSet::new).insert(holder)`). -/
def addWaitEdge (g : List (Nat × List Nat)) (txn holder : Nat) :
    List (Nat × List Nat) :=
  mapInsert g txn (insertNew (adjOf g txn) holder)

/-- Removing the wait-for edge again
(`wait_for.get_mut(&txn).map(|e| e.remove(&holder))`). -/
def removeWaitEdge (g : List (Nat × List Nat)) (txn holder : Nat) :
    List (Nat × List Nat) :=
  match mapLookup g txn with
  | some s => mapInsert g txn (s.erase holder)
  | none => g

/-- `DeadlockDetector::request_lock`. -/
def request_lock (d : DeadlockDetector) (txn_id resource_id : Nat) :
    DeadlockDetector × LockOutcome :=
  match mapLookup d.lock_holders resource_id with
  | some holder_id =>
      if holder_id = txn_id then (d, .ok)
      else
        let wf1 := addWaitEdge d.wait_for txn_id holder_id
        if has_cycle wf1 txn_id then
          ({ d with wait_for := removeWaitEdge wf1 txn_id holder_id },
           .deadlock txn_id holder_id)
        else
          ({ d with wait_for := wf1 }, .contended holder_id)
  | none =>
      ({ d with lock_holders := mapInsert d.lock_holders resource_id txn_id }, .ok)

/-- `DeadlockDetector::release_lock` (the txn argument is unused, as in the
code; wait-for edges are not cleaned here). -/
def release_lock (d : DeadlockDetector) (_txn_id resource_id : Nat) :
    DeadlockDetector :=
  { d with lock_holders := mapRemove d.lock_holders resource_id }

/-- `DeadlockDetector::release_all_locks`: drop every resource held by the
transaction and its wait-for entry. -/
def release_all_locks (d : DeadlockDetector) (txn_id : Nat) : DeadlockDetector :=
  { d with
    lock_holders := d.lock_holders.filter (fun kv => kv.2 ≠ txn_id),
    wait_for := mapRemove d.wait_for txn_id }

end DeadlockDetector

/-- The detector operations of the claim. -/
inductive DOp where
  | request (txn resource : Nat)
  | release (txn resource : Nat)
  | releaseAll (txn : Nat)

/-- Apply one detector operation (the result of a request is discarded:
the claim quantifies over all outcomes). -/
def applyDOp (d : DeadlockDetector) (op : DOp) : DeadlockDetector :=
  match op with
  | .request t r => (d.request_lock t r).1
  | .release t r => d.release_lock t r
  | .releaseAll t => d.release_all_locks t

/-- Run a sequence of detector operations from the fresh detector. -/
def runDetector (ops : List DOp) : DeadlockDetector :=
  ops.foldl applyDOp DeadlockDetector.new

/-- Nonempty paths in the wait-for graph: `IsPath g a l b` is a walk from
`a` to `b` whose intermediate nodes are `l`. -/
def IsPath (g : List (Nat × List Nat)) : Nat → List Nat → Nat → Prop
  | a, [], b => b ∈ adjOf g a
  | a, c :: cs, b => c ∈ adjOf g a ∧ IsPath g c cs b

/-- No nonempty cycle exists in the graph. -/
def Acyclic (g : List (Nat × List Nat)) : Prop :=
  ∀ t l, ¬ IsPath g t l t

/-- Every wait-for adjacency set is duplicate-free (`HashSet` semantics). -/
def NodupAdj (g : List (Nat × List Nat)) : Prop :=
  ∀ t, (adjOf g t).Nodup

namespace DeadlockDetector

/-- The DFS invariant: the recursion stack is visited; fully-explored
(visited, off-stack) nodes have fully-explored successors; and no cycle
runs through a fully-explored node. -/
def DfsInv (g : List (Nat × List Nat)) (v r : List Nat) : Prop :=
  (∀ x ∈ r, x ∈ v) ∧
  (∀ u ∈ v, u ∉ r → ∀ w ∈ adjOf g u, w ∈ v ∧ w ∉ r) ∧
  (∀ u ∈ v, u ∉ r → ∀ l, ¬ IsPath g u l u)

/-- Number of graph nodes not yet visited — the fuel measure. -/
def unvis (g : List (Nat × List Nat)) (v : List Nat) : Nat :=
  ((nodeSet g).filter (fun x => x ∉ v)).length

end DeadlockDetector

/-! ## Write-ahead log entries and recovery (`wal/log.rs`, `wal/recovery.rs`) -/

/-- Operations recorded in the log (`wal/log.rs::WALOperation`). -/
inductive WALOperation where
  | beginTxn
  | commitTxn
  | abortTxn
  | insertNode (node : Node)
  | updateNode (node : Node)
  | deleteNode (id : Nat)
  | insertEdge (edge : Edge)
  | updateEdge (edge : Edge)
  | deleteEdge (id : Nat)
  | checkpoint

/-- A log entry (`wal/log.rs::WALEntry`). -/
structure WALEntry where
  lsn : Nat
  txn_id : Nat
  operation : WALOperation
  timestamp : Nat

/-- The storage-backend interface consumed by recovery
(`storage/mod.rs::StorageBackend`, restricted to the mutating operations
recovery invokes; the returned entity ids are not used by recovery, so the
operations are modelled as state transformers). -/
structure StorageBackend (σ : Type) where
  add_node : σ → Node → DGResult σ
  update_node : σ → Node → DGResult σ
  delete_node : σ → Nat → DGResult σ
  add_edge : σ → Edge → DGResult σ
  update_edge : σ → Edge → DGResult σ
  delete_edge : σ → Nat → DGResult σ

namespace WALRecovery

variable {σ : Type}

/-- `WALRecovery::replay_entry`: dispatch a data-modifying operation to the
backend; control operations (BeginTxn, CommitTxn, AbortTxn, Checkpoint) are
skipped. -/
def replay_entry (B : StorageBackend σ) (s : σ) (e : WALEntry) : DGResult σ :=
  match e.operation with
  | .insertNode node => B.add_node s node
  | .updateNode node => B.update_node s node
  | .deleteNode id => B.delete_node s id
  | .insertEdge edge => B.add_edge s edge
  | .updateEdge edge => B.update_edge s edge
  | .deleteEdge id => B.delete_edge s id
  | _ => .ok s

/-- First pass of `WALRecovery::recover`: collect the set of transaction ids
having a CommitTxn record (a `HashSet`, modelled as a duplicate-free list). -/
def collectCommitted (segments : List (List WALEntry)) : List Nat :=
  segments.foldl
    (fun acc seg =>
      seg.foldl
        (fun acc2 e =>
          match e.operation with
          | .commitTxn => if e.txn_id ∈ acc2 then acc2 else e.txn_id :: acc2
          | _ => acc2)
        acc)
    []

/-- Inner loop of the replay pass: replay each entry whose transaction id is
in the commit set. -/
def replayEntries (B : StorageBackend σ) (committed : List Nat) :
    List WALEntry → σ → DGResult σ
  | [], s => .ok s
  | e :: rest, s =>
      if e.txn_id ∈ committed then
        match replay_entry B s e with
        | .ok s₁ => replayEntries B committed rest s₁
        | .error err => .error err
      else replayEntries B committed rest s

/-- Outer loop of the replay pass, over the segments in sorted order. -/
def replaySegments (B : StorageBackend σ) (committed : List Nat) :
    List (List WALEntry) → σ → DGResult σ
  | [], s => .ok s
  | seg :: rest, s =>
      match replayEntries B committed seg s with
      | .ok s₁ => replaySegments B committed rest s₁
      | .error err => .error err

/-- `WALRecovery::recover` at the level of decoded segments: the commit-set
pass followed by the replay pass. (The recovered-entry counter the Rust
function also returns is not modelled; the claims concern the storage
state.) -/
def recover (B : StorageBackend σ) (segments : List (List WALEntry)) (s : σ) :
    DGResult σ :=
  replaySegments B (collectCommitted segments) segments s

/-- Whether an entry carries one of the six data-modifying operations. -/
def isDataOp (e : WALEntry) : Bool :=
  match e.operation with
  | .insertNode _ => true
  | .updateNode _ => true
  | .deleteNode _ => true
  | .insertEdge _ => true
  | .updateEdge _ => true
  | .deleteEdge _ => true
  | _ => false

/-- The data-modifying entries of committed transactions, in log order. -/
def committedDataOps (segments : List (List WALEntry)) : List WALEntry :=
  segments.flatten.filter
    (fun e => (collectCommitted segments).contains e.txn_id && isDataOp e)

/-- Sequential application of a list of entries to the backend, stopping at
the first error: the reference fold the replay pass is compared against. -/
def applyAll (B : StorageBackend σ) : List WALEntry → σ → DGResult σ
  | [], s => .ok s
  | e :: rest, s =>
      match replay_entry B s e with
      | .ok s₁ => applyAll B rest s₁
      | .error err => .error err

end WALRecovery

/-! ## Segment decoding (`wal/recovery.rs::read_segment`) -/

/-- Little-endian base-256 value of a byte list. -/
def leNum : List Nat → Nat
  | [] => 0
  | b :: rest => b + 256 * leNum rest

/-- The four little-endian bytes of a `u32` length prefix. -/
def u32le (n : Nat) : List Nat :=
  [n % 256, n / 256 % 256, n / 65536 % 256, n / 16777216 % 256]

namespace WALRecovery

/-- `WALRecovery::read_segment` over the raw segment bytes, parametrised by
the (external `bincode`) entry decoder. Reading the 4-byte length prefix at
end-of-file breaks the loop; a short read of the entry payload is an IO
error; a payload `bincode` rejects is a storage error. -/
def read_segment (decode : List Nat → Option WALEntry) (bytes : List Nat) :
    DGResult (List WALEntry) :=
  if _h4 : bytes.length < 4 then .ok []
  else
    let len := leNum (bytes.take 4)
    let rest := bytes.drop 4
    if rest.length < len then .error (.IoError "unexpected end of file")
    else
      match decode (rest.take len) with
      | none => .error (.StorageError "Deserialize error")
      | some entry =>
          match read_segment decode (rest.drop len) with
          | .ok entries => .ok (entry :: entries)
          | .error err => .error err
termination_by bytes.length
decreasing_by
  simp only [List.length_drop]
  omega

end WALRecovery

/-- Concrete log used by the recovery witness: transaction 1 inserts a node
and commits; transaction 2 inserts a node but never commits. -/
def recoveryWitnessSegments : List (List WALEntry) :=
  [[⟨1, 1, .beginTxn, 0⟩, ⟨2, 1, .insertNode ⟨7, [], []⟩, 0⟩, ⟨3, 1, .commitTxn, 0⟩],
   [⟨4, 2, .insertNode ⟨8, [], []⟩, 0⟩]]

/-- A small backend over lists of ids, used by the recovery witness. -/
def recoveryWitnessBackend : StorageBackend (List Nat) :=
  ⟨fun s n => .ok (n.id :: s), fun s n => .ok (n.id :: s), fun s i => .ok (i :: s),
   fun s e => .ok (e.id :: s), fun s e => .ok (e.id :: s), fun s i => .ok (i :: s)⟩


/-! ## Secondary indices (`index/mod.rs`, `index/hash.rs`, `index/btree.rs`,
`index/manager.rs`) -/

/-- The `k` little-endian base-256 bytes of `n` (`to_le_bytes`). -/
def natToLeBytes : Nat → Nat → List Nat
  | 0, _ => []
  | k + 1, n => n % 256 :: natToLeBytes k (n / 256)

/-- `i64::to_le_bytes`: the 8 little-endian bytes of the two's-complement
representative of `i`. -/
def i64le (i : Int) : List Nat :=
  natToLeBytes 8 (i % (2 ^ 64 : Int)).toNat

/-- `BTreeIndex::encode_node_id`: a node id serialises to exactly 16 bytes
(`Uuid::as_bytes`); the id is carried as a `Nat`, so its 16-byte
little-endian form stands in for the UUID byte layout. -/
def encodeId16 (id : Nat) : List Nat :=
  natToLeBytes 16 id

/-- `property_to_bytes` (`index/mod.rs`). Strings are modelled by their code
points, and the `f64` bit pattern and the `serde_json` encoding of nested
values are left abstract (no claim under study indexes floats, lists or
maps). -/
def property_to_bytes : PropertyValue → List Nat
  | .string s => s.data.map Char.toNat
  | .integer i => i64le i
  | .float _ => List.replicate 8 0
  | .boolean b => [if b then 1 else 0]
  | .null => [0]
  | .list _ => []
  | .map _ => []

/-- Strict lexicographic order on byte strings (the `Ord` of Rust byte
slices and of sled keys): compare pointwise, a proper prefix is smaller. -/
def lexLt : List Nat → List Nat → Bool
  | [], [] => false
  | [], _ :: _ => true
  | _ :: _, [] => false
  | x :: xs, y :: ys => if x < y then true else if y < x then false else lexLt xs ys

/-- Non-strict lexicographic order on byte strings. -/
def lexLe : List Nat → List Nat → Bool
  | [], _ => true
  | _ :: _, [] => false
  | x :: xs, y :: ys => if x < y then true else if y < x then false else lexLe xs ys

/-- `BTreeIndex` (`index/btree.rs`): the backing sled tree maps composite
keys to empty payloads, so it is the set of composite keys present
(`tree.insert(composite_key, &[])` overwrites an existing key). `range` and
`lookup` are characterised by membership, so the iteration order of the
model's list does not matter to the claims. -/
structure BTreeIndex where
  tree : List (List Nat)

namespace BTreeIndex

/-- `BTreeIndex::new_temp` (sled environment failures are not modelled). -/
def new_temp : BTreeIndex := ⟨[]⟩

/-- `BTreeIndex::decode_node_id`: `Uuid::from_slice` succeeds exactly on
16-byte input. -/
def decode_node_id (bytes : List Nat) : Option Nat :=
  if bytes.length = 16 then some (leNum bytes) else none

/-- `BTreeIndex::make_key`: composite key = index key ++ 16-byte node id. -/
def make_key (key : List Nat) (node_id : Nat) : List Nat :=
  key ++ encodeId16 node_id

/-- `BTreeIndex::insert`: put the composite key into the tree. -/
def insert (idx : BTreeIndex) (key : List Nat) (value : Nat) : BTreeIndex :=
  if make_key key value ∈ idx.tree then idx else ⟨make_key key value :: idx.tree⟩

/-- `BTreeIndex::lookup`: scan the composite keys extending `key` and decode
the node id that follows the prefix. -/
def lookup (idx : BTreeIndex) (key : List Nat) : List Nat :=
  (idx.tree.filter fun ck => List.isPrefixOf key ck).filterMap fun ck =>
    if ck.length > key.length then decode_node_id (ck.drop key.length) else none

/-- `BTreeIndex::range`: the composite keys in the byte interval
`[start, stop)` of the sled (lexicographic) order, decoding the final
16 bytes of each as the node id. -/
def range (idx : BTreeIndex) (start stop : List Nat) : List Nat :=
  (idx.tree.filter fun ck => lexLe start ck && lexLt ck stop).filterMap fun ck =>
    if 16 ≤ ck.length then decode_node_id (ck.drop (ck.length - 16)) else none

end BTreeIndex

/-- `HashIndex` (`index/hash.rs`): key bytes to the vector of node ids
pushed under that key. -/
structure HashIndex where
  data : List (List Nat × List Nat)

namespace HashIndex

/-- `HashIndex::new`. -/
def new : HashIndex := ⟨[]⟩

/-- `HashIndex::insert`: `entry(key).or_insert_with(Vec::new).push(value)`. -/
def insert (idx : HashIndex) (key : List Nat) (value : Nat) : HashIndex :=
  ⟨mapInsert idx.data key ((mapLookup idx.data key).getD [] ++ [value])⟩

/-- `HashIndex::lookup`: the stored vector, or empty. -/
def lookup (idx : HashIndex) (key : List Nat) : List Nat :=
  (mapLookup idx.data key).getD []

/-- `HashIndex::range` returns `Ok(Vec::new())` unconditionally (the manager
rejects hash-index range queries before reaching this). -/
def range (_idx : HashIndex) (_start _stop : List Nat) : List Nat := []

end HashIndex

/-- `manager.rs::IndexType`. -/
inductive IndexType where
  | hash
  | btree

/-- `manager.rs::IndexConfig`. -/
structure IndexConfig where
  name : String
  index_type : IndexType
  property_key : Option String
  is_label_index : Bool

/-- `manager.rs::IndexImpl`. -/
inductive IndexImpl where
  | hash (h : HashIndex)
  | btree (b : BTreeIndex)

/-- `IndexManager` (`manager.rs`), without the persistence directory. -/
structure IndexManager where
  indices : List (String × IndexImpl)
  label_indices : List (String × String)
  property_indices : List (String × String)

namespace IndexManager

/-- `IndexManager::new`. -/
def new : IndexManager := ⟨[], [], []⟩

/-- `IndexManager::create_index` on the in-memory path (`new_temp`; sled
open failures are environmental and not modelled). -/
def create_index (m : IndexManager) (config : IndexConfig) : IndexManager :=
  let impl : IndexImpl :=
    match config.index_type with
    | .hash => .hash HashIndex.new
    | .btree => .btree BTreeIndex.new_temp
  let m₁ : IndexManager := { m with indices := mapInsert m.indices config.name impl }
  if config.is_label_index then
    { m₁ with label_indices := mapInsert m₁.label_indices config.name config.name }
  else
    match config.property_key with
    | some prop_key =>
        { m₁ with property_indices := mapInsert m₁.property_indices prop_key config.name }
    | none => m₁

/-- `IndexManager::insert_property` (always `Ok(())` in the source; the
state change is returned). -/
def insert_property (m : IndexManager) (key : String) (value : PropertyValue)
    (node_id : Nat) : IndexManager :=
  match mapLookup m.property_indices key with
  | none => m
  | some index_name =>
      match mapLookup m.indices index_name with
      | none => m
      | some (.hash h) =>
          { m with indices :=
              mapInsert m.indices index_name (.hash (h.insert (property_to_bytes value) node_id)) }
      | some (.btree b) =>
          { m with indices :=
              mapInsert m.indices index_name (.btree (b.insert (property_to_bytes value) node_id)) }

/-- `IndexManager::lookup_property` (the sled read errors on the b-tree path
are environmental and not modelled, so that branch is infallible here). -/
def lookup_property (m : IndexManager) (key : String) (value : PropertyValue) :
    DGResult (List Nat) :=
  match mapLookup m.property_indices key with
  | none => .ok []
  | some index_name =>
      match mapLookup m.indices index_name with
      | none => .ok []
      | some (.hash h) => .ok (h.lookup (property_to_bytes value))
      | some (.btree b) => .ok (b.lookup (property_to_bytes value))

/-- `IndexManager::range_property`: b-tree indices run the byte-range scan,
hash indices are rejected with a `StorageError`. -/
def range_property (m : IndexManager) (key : String) (start stop : PropertyValue) :
    DGResult (List Nat) :=
  match mapLookup m.property_indices key with
  | none => .ok []
  | some index_name =>
      match mapLookup m.indices index_name with
      | none => .ok []
      | some (.btree b) =>
          .ok (b.range (property_to_bytes start) (property_to_bytes stop))
      | some (.hash _) =>
          .error (.StorageError "Range queries not supported on hash indices")

end IndexManager

/-- Does a result carry an error of the `InvalidOperation` kind? -/
def isInvalidOperationError {α : Type} (r : DGResult α) : Bool :=
  match r with
  | .error (.InvalidOperation _) => true
  | _ => false

/-- Build a b-tree index from integer-value/node-id pairs, exactly as
`insert_property` feeds a `BTree` property index. -/
def buildBTree (pairs : List (Int × Nat)) : BTreeIndex :=
  pairs.foldl (fun b p => b.insert (i64le p.1) p.2) BTreeIndex.new_temp

/-- A manager holding a hash property index on key `age`. -/
def hashAgeManager : IndexManager :=
  IndexManager.create_index IndexManager.new ⟨"age_index", .hash, some "age", false⟩

/-- A manager holding a b-tree property index on key `age` into which the
value 256 was inserted for node 1. -/
def btreeRangeManager : IndexManager :=
  IndexManager.insert_property
    (IndexManager.create_index IndexManager.new ⟨"age_index", .btree, some "age", false⟩)
    "age" (.integer 256) 1

/-! ## Query executor (`query/ast.rs`, `query/executor.rs`) -/

/-- `ast.rs::Expression`. -/
inductive Expression where
  | literal (value : PropertyValue)
  | var (name : String)
  | property (base : Expression) (prop : String)
  | and (left right : Expression)
  | or (left right : Expression)
  | eq (left right : Expression)
  | ne (left right : Expression)
  | lt (left right : Expression)
  | le (left right : Expression)
  | gt (left right : Expression)
  | ge (left right : Expression)
  | add (left right : Expression)
  | sub (left right : Expression)
  | mul (left right : Expression)
  | div (left right : Expression)
  | mod (left right : Expression)
  | not (inner : Expression)
  | neg (inner : Expression)
  | functionCall (name : String) (args : List Expression) (distinct : Bool)
  | parameter (name : String)

/-- A result row: `HashMap<String, PropertyValue>`. -/
abbrev Row := List (String × PropertyValue)

mutual

/-- The derived `PartialEq` of `PropertyValue`, used by `==` in the
executor's `Eq`/`Ne` branches (on the `Rat` carrier for floats). -/
def PropertyValue.beq : PropertyValue → PropertyValue → Bool
  | .string a, .string b => a == b
  | .integer a, .integer b => a == b
  | .float a, .float b => a == b
  | .boolean a, .boolean b => a == b
  | .null, .null => true
  | .list xs, .list ys => PropertyValue.beqList xs ys
  | .map m₁, .map m₂ => PropertyValue.beqPairs m₁ m₂
  | _, _ => false

/-- Pointwise equality of value lists. -/
def PropertyValue.beqList : List PropertyValue → List PropertyValue → Bool
  | [], [] => true
  | x :: xs, y :: ys => PropertyValue.beq x y && PropertyValue.beqList xs ys
  | _, _ => false

/-- Pointwise equality of key/value pair lists. -/
def PropertyValue.beqPairs :
    List (String × PropertyValue) → List (String × PropertyValue) → Bool
  | [], [] => true
  | (k₁, v₁) :: xs, (k₂, v₂) :: ys =>
      k₁ == k₂ && PropertyValue.beq v₁ v₂ && PropertyValue.beqPairs xs ys
  | _, _ => false

end

namespace QueryExecutor

/-- `QueryExecutor::compare_values`, as a three-way comparison (`cmp as i32`
is `-1`, `0` or `1`). -/
def compare_values (left right : PropertyValue) : DGResult Int :=
  match left, right with
  | .integer l, .integer r => .ok (if l < r then -1 else if r < l then 1 else 0)
  | .float l, .float r => .ok (if l < r then -1 else if r < l then 1 else 0)
  | .integer l, .float r =>
      .ok (if (l : Rat) < r then -1 else if r < (l : Rat) then 1 else 0)
  | .float l, .integer r =>
      .ok (if l < (r : Rat) then -1 else if (r : Rat) < l then 1 else 0)
  | .string l, .string r => .ok (if l < r then -1 else if r < l then 1 else 0)
  | .boolean l, .boolean r => .ok (if l < r then -1 else if r < l then 1 else 0)
  | _, _ => .error (.InvalidOperation "Cannot compare incompatible types")

/-- `QueryExecutor::add_values`. -/
def add_values (left right : PropertyValue) : DGResult PropertyValue :=
  match left, right with
  | .integer l, .integer r => .ok (.integer (l + r))
  | .float l, .float r => .ok (.float (l + r))
  | .integer l, .float r => .ok (.float ((l : Rat) + r))
  | .float l, .integer r => .ok (.float (l + (r : Rat)))
  | .string l, .string r => .ok (.string (l ++ r))
  | _, _ => .error (.InvalidOperation "Cannot add incompatible types")

/-- `QueryExecutor::sub_values`. -/
def sub_values (left right : PropertyValue) : DGResult PropertyValue :=
  match left, right with
  | .integer l, .integer r => .ok (.integer (l - r))
  | .float l, .float r => .ok (.float (l - r))
  | .integer l, .float r => .ok (.float ((l : Rat) - r))
  | .float l, .integer r => .ok (.float (l - (r : Rat)))
  | _, _ => .error (.InvalidOperation "Cannot subtract incompatible types")

/-- `QueryExecutor::mul_values`. -/
def mul_values (left right : PropertyValue) : DGResult PropertyValue :=
  match left, right with
  | .integer l, .integer r => .ok (.integer (l * r))
  | .float l, .float r => .ok (.float (l * r))
  | .integer l, .float r => .ok (.float ((l : Rat) * r))
  | .float l, .integer r => .ok (.float (l * (r : Rat)))
  | _, _ => .error (.InvalidOperation "Cannot multiply incompatible types")

/-- `QueryExecutor::div_values`. Rust `i64` division truncates toward zero
(`Int.tdiv`); the divisor is tested against zero before dividing. -/
def div_values (left right : PropertyValue) : DGResult PropertyValue :=
  match left, right with
  | .integer l, .integer r =>
      if r = 0 then .error (.InvalidOperation "Division by zero")
      else .ok (.integer (Int.tdiv l r))
  | .float l, .float r =>
      if r = 0 then .error (.InvalidOperation "Division by zero")
      else .ok (.float (l / r))
  | .integer l, .float r =>
      if r = 0 then .error (.InvalidOperation "Division by zero")
      else .ok (.float ((l : Rat) / r))
  | .float l, .integer r =>
      if r = 0 then .error (.InvalidOperation "Division by zero")
      else .ok (.float (l / (r : Rat)))
  | _, _ => .error (.InvalidOperation "Cannot divide incompatible types")

/-- `QueryExecutor::evaluate_value`. The catch-all drops the `{:?}` debug
payload of the source's error message; no claim inspects that string. -/
def evaluate_value : Expression → Row → DGResult PropertyValue
  | .literal val, _ => .ok val
  | .var name, row =>
      match mapLookup row name with
      | some v => .ok v
      | none => .error (.InvalidOperation ("Variable not found: " ++ name))
  | .property base prop, row =>
      match base with
      | .var var_name =>
          match mapLookup row prop with
          | some v => .ok v
          | none =>
              .error (.InvalidOperation ("Property not found: " ++ var_name ++ "." ++ prop))
      | _ => .error (.InvalidOperation "Complex property access not yet supported")
  | .add left right, row =>
      match evaluate_value left row with
      | .error e => .error e
      | .ok left_val =>
          match evaluate_value right row with
          | .error e => .error e
          | .ok right_val => add_values left_val right_val
  | .sub left right, row =>
      match evaluate_value left row with
      | .error e => .error e
      | .ok left_val =>
          match evaluate_value right row with
          | .error e => .error e
          | .ok right_val => sub_values left_val right_val
  | .mul left right, row =>
      match evaluate_value left row with
      | .error e => .error e
      | .ok left_val =>
          match evaluate_value right row with
          | .error e => .error e
          | .ok right_val => mul_values left_val right_val
  | .div left right, row =>
      match evaluate_value left row with
      | .error e => .error e
      | .ok left_val =>
          match evaluate_value right row with
          | .error e => .error e
          | .ok right_val => div_values left_val right_val
  | .neg inner, row =>
      match evaluate_value inner row with
      | .error e => .error e
      | .ok val =>
          match val with
          | .integer i => .ok (.integer (-i))
          | .float f => .ok (.float (-f))
          | _ => .error (.InvalidOperation "Cannot negate non-numeric value")
  | _, _ => .error (.InvalidOperation "Expression evaluation not yet implemented")

/-- The truthiness coercion of the catch-all branch of
`evaluate_predicate`: booleans stand for themselves, `Null` is false,
every other value is true. -/
def truthiness : PropertyValue → Bool
  | .boolean b => b
  | .null => false
  | _ => true

/-- `QueryExecutor::evaluate_predicate`. -/
def evaluate_predicate : Expression → Row → DGResult Bool
  | .and left right, row =>
      match evaluate_predicate left row with
      | .error e => .error e
      | .ok left_val =>
          match evaluate_predicate right row with
          | .error e => .error e
          | .ok right_val => .ok (left_val && right_val)
  | .or left right, row =>
      match evaluate_predicate left row with
      | .error e => .error e
      | .ok left_val =>
          match evaluate_predicate right row with
          | .error e => .error e
          | .ok right_val => .ok (left_val || right_val)
  | .not inner, row =>
      match evaluate_predicate inner row with
      | .error e => .error e
      | .ok val => .ok (!val)
  | .eq left right, row =>
      match evaluate_value left row with
      | .error e => .error e
      | .ok left_val =>
          match evaluate_value right row with
          | .error e => .error e
          | .ok right_val => .ok (PropertyValue.beq left_val right_val)
  | .ne left right, row =>
      match evaluate_value left row with
      | .error e => .error e
      | .ok left_val =>
          match evaluate_value right row with
          | .error e => .error e
          | .ok right_val => .ok (!PropertyValue.beq left_val right_val)
  | .lt left right, row =>
      match evaluate_value left row with
      | .error e => .error e
      | .ok left_val =>
          match evaluate_value right row with
          | .error e => .error e
          | .ok right_val =>
              match compare_values left_val right_val with
              | .error e => .error e
              | .ok c => .ok (decide (c < 0))
  | .le left right, row =>
      match evaluate_value left row with
      | .error e => .error e
      | .ok left_val =>
          match evaluate_value right row with
          | .error e => .error e
          | .ok right_val =>
              match compare_values left_val right_val with
              | .error e => .error e
              | .ok c => .ok (decide (c ≤ 0))
  | .gt left right, row =>
      match evaluate_value left row with
      | .error e => .error e
      | .ok left_val =>
          match evaluate_value right row with
          | .error e => .error e
          | .ok right_val =>
              match compare_values left_val right_val with
              | .error e => .error e
              | .ok c => .ok (decide (0 < c))
  | .ge left right, row =>
      match evaluate_value left row with
      | .error e => .error e
      | .ok left_val =>
          match evaluate_value right row with
          | .error e => .error e
          | .ok right_val =>
              match compare_values left_val right_val with
              | .error e => .error e
              | .ok c => .ok (decide (0 ≤ c))
  | e, row =>
      match evaluate_value e row with
      | .error err => .error err
      | .ok val => .ok (truthiness val)

/-- Does `evaluate_predicate` dispatch `e` to a dedicated branch (rather
than the truthiness catch-all)? -/
def isCompound : Expression → Bool
  | .and _ _ | .or _ _ | .not _ => true
  | .eq _ _ | .ne _ _ | .lt _ _ | .le _ _ | .gt _ _ | .ge _ _ => true
  | _ => false

/-- The row filter of `QueryExecutor::execute_filter`:
`rows.filter(|row| evaluate_predicate(predicate, row).unwrap_or(false))`. -/
def execute_filter (predicate : Expression) (rows : List Row) : List Row :=
  rows.filter fun row =>
    match evaluate_predicate predicate row with
    | .ok b => b
    | .error _ => false

end QueryExecutor


/-! # Theorems -/

section AssocMapLemmas

variable {κ : Type} [DecidableEq κ] {α : Type}

theorem mapLookup_insert (m : List (κ × α)) (k : κ) (v : α) :
    mapLookup (mapInsert m k v) k = some v := by
  induction m with
  | nil => simp [mapInsert, mapLookup]
  | cons hd tl ih =>
      obtain ⟨k', v'⟩ := hd
      by_cases h : k' = k
      · simp [mapInsert, h, mapLookup]
      · simp [mapInsert, h, mapLookup, ih]

theorem mapLookup_insert_ne (m : List (κ × α)) (k k₀ : κ) (v : α) (h : k ≠ k₀) :
    mapLookup (mapInsert m k v) k₀ = mapLookup m k₀ := by
  induction m with
  | nil => simp [mapInsert, mapLookup, h]
  | cons hd tl ih =>
      obtain ⟨k', v'⟩ := hd
      by_cases hk : k' = k
      · subst hk
        simp [mapInsert, mapLookup, h, fun hh : k' = k₀ => h hh]
      · simp only [mapInsert, if_neg hk]
        by_cases hk0 : k' = k₀ <;> simp [mapLookup, hk0, ih]

theorem mapInsert_length (m : List (κ × α)) (k : κ) (v : α) :
    (mapInsert m k v).length =
      if mapContains m k then m.length else m.length + 1 := by
  induction m with
  | nil => simp [mapInsert, mapContains, mapLookup]
  | cons hd tl ih =>
      obtain ⟨k', v'⟩ := hd
      by_cases h : k' = k
      · simp [mapInsert, h, mapContains, mapLookup]
      · simp only [mapInsert, if_neg h, List.length_cons, mapContains, mapLookup, if_neg h]
        rw [show (mapLookup tl k).isSome = mapContains tl k from rfl]
        rw [ih]
        by_cases hc : mapContains tl k <;> simp [hc]

theorem mapLookup_remove_self (m : List (κ × α)) (k : κ) :
    mapLookup (mapRemove m k) k = none := by
  induction m with
  | nil => simp [mapRemove, mapLookup]
  | cons hd tl ih =>
      obtain ⟨k', v'⟩ := hd
      by_cases h : k' = k
      · simpa [mapRemove, h] using ih
      · simpa [mapRemove, h, mapLookup] using ih

theorem mapLookup_remove_ne (m : List (κ × α)) (k k₀ : κ) (h : k ≠ k₀) :
    mapLookup (mapRemove m k) k₀ = mapLookup m k₀ := by
  induction m with
  | nil => simp [mapRemove]
  | cons hd tl ih =>
      obtain ⟨k', v'⟩ := hd
      by_cases hk : k' = k
      · subst hk
        simpa [mapRemove, mapLookup, fun hh : k' = k₀ => h hh] using ih
      · by_cases hk0 : k' = k₀
        · subst hk0
          simp [mapRemove, hk, mapLookup]
        · simp [mapRemove, hk, mapLookup, hk0, ih]

theorem mapLookup_some_mem {m : List (κ × α)} {k : κ} {v : α}
    (h : mapLookup m k = some v) : (k, v) ∈ m := by
  induction m with
  | nil => simp [mapLookup] at h
  | cons hd tl ih =>
      obtain ⟨k', v'⟩ := hd
      by_cases hk : k' = k
      · subst hk
        rw [mapLookup, if_pos rfl] at h
        injection h with h
        subst h
        exact List.mem_cons_self _ _
      · rw [mapLookup, if_neg hk] at h
        exact List.mem_cons_of_mem _ (ih h)

end AssocMapLemmas

theorem contains_iff_mem {l : List Nat} {a : Nat} : l.contains a = true ↔ a ∈ l := by
  simp

namespace MemoryStorage

theorem lookup_mapRemove_some {E : List (Nat × Edge)} {i k : Nat} {e : Edge}
    (h : mapLookup (mapRemove E i) k = some e) :
    k ≠ i ∧ mapLookup E k = some e := by
  rcases eq_or_ne k i with rfl | hne
  · rw [mapLookup_remove_self] at h
    exact absurd h (by simp)
  · rw [mapLookup_remove_ne E i k (Ne.symm hne)] at h
    exact ⟨hne, h⟩

theorem lookup_removeEdges_some {ids : List Nat} :
    ∀ {E : List (Nat × Edge)} {k : Nat} {e : Edge},
    mapLookup (removeEdges E ids) k = some e →
    mapLookup E k = some e ∧ k ∉ ids := by
  induction ids with
  | nil =>
      intro E k e h
      exact ⟨h, by simp⟩
  | cons i rest ih =>
      intro E k e h
      rw [removeEdges] at h
      obtain ⟨h1, h2⟩ := ih h
      obtain ⟨hne, h3⟩ := lookup_mapRemove_some h1
      exact ⟨h3, by simp [hne, h2]⟩

theorem lookup_removeEdges_none {ids : List Nat} :
    ∀ {E : List (Nat × Edge)} {k : Nat},
    mapLookup E k = none → mapLookup (removeEdges E ids) k = none := by
  induction ids with
  | nil => intro E k h; exact h
  | cons i rest ih =>
      intro E k h
      rw [removeEdges]
      apply ih
      rcases eq_or_ne k i with rfl | hne
      · exact mapLookup_remove_self E k
      · rw [mapLookup_remove_ne E i k (Ne.symm hne)]
        exact h

theorem lookup_removeEdges_mem {ids : List Nat} :
    ∀ {E : List (Nat × Edge)} {k : Nat},
    k ∈ ids → mapLookup (removeEdges E ids) k = none := by
  induction ids with
  | nil => intro E k h; exact absurd h (by simp)
  | cons i rest ih =>
      intro E k h
      rw [removeEdges]
      rcases List.mem_cons.mp h with rfl | hmem
      · apply lookup_removeEdges_none
        exact mapLookup_remove_self E k
      · exact ih hmem

theorem delete_node_spec {s : MemoryStorage} {id : Nat} {nd : Node}
    (h : mapLookup s.nodes id = some nd) :
    delete_node s id =
      .ok ⟨mapRemove s.nodes id,
           removeEdges (removeEdges s.edges ((mapLookup s.outgoing_edges id).getD []))
             ((mapLookup s.incoming_edges id).getD []),
           mapRemove s.outgoing_edges id,
           mapRemove s.incoming_edges id⟩ := by
  unfold delete_node
  rw [h]

theorem add_edge_spec {s : MemoryStorage} {e : Edge}
    (hf : mapContains s.nodes e.from_ = true) (ht : mapContains s.nodes e.to_ = true) :
    add_edge s e =
      .ok (e.id,
        ⟨s.nodes,
         mapInsert s.edges e.id e,
         mapInsert s.outgoing_edges e.from_
           (((mapLookup s.outgoing_edges e.from_).getD []) ++ [e.id]),
         mapInsert s.incoming_edges e.to_
           (((mapLookup s.incoming_edges e.to_).getD []) ++ [e.id])⟩) := by
  unfold add_edge
  rw [if_neg (by simp [hf]), if_neg (by simp [ht])]

theorem delete_edge_spec {s : MemoryStorage} {id : Nat} {edge : Edge}
    (h : mapLookup s.edges id = some edge) :
    ∃ s₃, delete_edge s id = .ok s₃ ∧
      s₃.nodes = s.nodes ∧
      s₃.edges = mapRemove s.edges id ∧
      (∀ n, (mapLookup s₃.outgoing_edges n).getD [] =
        if n = edge.from_ then
          ((mapLookup s.outgoing_edges n).getD []).filter (fun eid => eid ≠ id)
        else (mapLookup s.outgoing_edges n).getD []) ∧
      (∀ n, (mapLookup s₃.incoming_edges n).getD [] =
        if n = edge.to_ then
          ((mapLookup s.incoming_edges n).getD []).filter (fun eid => eid ≠ id)
        else (mapLookup s.incoming_edges n).getD []) := by
  unfold delete_edge
  rw [h]
  dsimp only
  cases hout : mapLookup s.outgoing_edges edge.from_ with
  | none =>
      dsimp only
      cases hin : mapLookup s.incoming_edges edge.to_ with
      | none =>
          refine ⟨_, rfl, rfl, rfl, ?_, ?_⟩
          · intro n
            rcases eq_or_ne n edge.from_ with rfl | hne
            · simp [hout]
            · simp [hne]
          · intro n
            rcases eq_or_ne n edge.to_ with rfl | hne
            · simp [hin]
            · simp [hne]
      | some lstIn =>
          refine ⟨_, rfl, rfl, rfl, ?_, ?_⟩
          · intro n
            rcases eq_or_ne n edge.from_ with rfl | hne
            · simp [hout]
            · simp [hne]
          · intro n
            rcases eq_or_ne n edge.to_ with rfl | hne
            · simp [mapLookup_insert, hin]
            · simp [hne, mapLookup_insert_ne _ _ _ _ (Ne.symm hne)]
  | some lstOut =>
      dsimp only
      cases hin : mapLookup s.incoming_edges edge.to_ with
      | none =>
          refine ⟨_, rfl, rfl, rfl, ?_, ?_⟩
          · intro n
            rcases eq_or_ne n edge.from_ with rfl | hne
            · simp [mapLookup_insert, hout]
            · simp [hne, mapLookup_insert_ne _ _ _ _ (Ne.symm hne)]
          · intro n
            rcases eq_or_ne n edge.to_ with rfl | hne
            · simp [hin]
            · simp [hne]
      | some lstIn =>
          refine ⟨_, rfl, rfl, rfl, ?_, ?_⟩
          · intro n
            rcases eq_or_ne n edge.from_ with rfl | hne
            · simp [mapLookup_insert, hout]
            · simp [hne, mapLookup_insert_ne _ _ _ _ (Ne.symm hne)]
          · intro n
            rcases eq_or_ne n edge.to_ with rfl | hne
            · simp [mapLookup_insert, hin]
            · simp [hne, mapLookup_insert_ne _ _ _ _ (Ne.symm hne)]

theorem idFresh_lookup_edges {s : MemoryStorage} {eid : Nat}
    (h : idFresh s eid = true) : mapLookup s.edges eid = none := by
  unfold idFresh at h
  rw [Bool.and_eq_true, Bool.and_eq_true] at h
  have h1 := h.1.1
  rw [Bool.not_eq_true'] at h1
  unfold mapContains at h1
  cases hc : mapLookup s.edges eid with
  | none => rfl
  | some e => rw [hc] at h1; exact absurd h1 (by simp)

theorem idFresh_not_mem_outgoing {s : MemoryStorage} {eid : Nat}
    (h : idFresh s eid = true) (n : Nat) :
    eid ∉ (mapLookup s.outgoing_edges n).getD [] := by
  unfold idFresh at h
  rw [Bool.and_eq_true, Bool.and_eq_true] at h
  cases hc : mapLookup s.outgoing_edges n with
  | none => simp
  | some lst =>
      have hmem := mapLookup_some_mem hc
      have := List.all_eq_true.mp h.1.2 _ hmem
      rw [Bool.not_eq_true'] at this
      simp only [Option.getD_some]
      intro hin
      dsimp only at this
      rw [contains_iff_mem.mpr hin] at this
      exact absurd this (by simp)

theorem idFresh_not_mem_incoming {s : MemoryStorage} {eid : Nat}
    (h : idFresh s eid = true) (n : Nat) :
    eid ∉ (mapLookup s.incoming_edges n).getD [] := by
  unfold idFresh at h
  rw [Bool.and_eq_true, Bool.and_eq_true] at h
  cases hc : mapLookup s.incoming_edges n with
  | none => simp
  | some lst =>
      have hmem := mapLookup_some_mem hc
      have := List.all_eq_true.mp h.2 _ hmem
      rw [Bool.not_eq_true'] at this
      simp only [Option.getD_some]
      intro hin
      dsimp only at this
      rw [contains_iff_mem.mpr hin] at this
      exact absurd this (by simp)

theorem adjInv_new : AdjacencyInv new := by
  refine ⟨?_, ?_, ?_⟩ <;> intro a b hb <;> simp [new, mapLookup] at hb

theorem adjInv_add_edge {s : MemoryStorage} {e : Edge}
    (hInv : AdjacencyInv s) (hfresh : idFresh s e.id = true) :
    AdjacencyInv
      ⟨s.nodes,
       mapInsert s.edges e.id e,
       mapInsert s.outgoing_edges e.from_
         (((mapLookup s.outgoing_edges e.from_).getD []) ++ [e.id]),
       mapInsert s.incoming_edges e.to_
         (((mapLookup s.incoming_edges e.to_).getD []) ++ [e.id])⟩ := by
  obtain ⟨inv1, inv2, inv3⟩ := hInv
  refine ⟨?_, ?_, ?_⟩
  · intro id' e' hlk'
    dsimp only at hlk' ⊢
    by_cases hid : e.id = id'
    · subst hid
      rw [mapLookup_insert] at hlk'
      injection hlk' with hlk'
      subst hlk'
      constructor
      · rw [mapLookup_insert]
        simp
      · rw [mapLookup_insert]
        simp
    · rw [mapLookup_insert_ne _ _ _ _ hid] at hlk'
      obtain ⟨ho, hi⟩ := inv1 id' e' hlk'
      constructor
      · by_cases hfm : e'.from_ = e.from_
        · rw [hfm, mapLookup_insert]
          simp only [Option.getD_some]
          exact List.mem_append_left _ (by rw [← hfm]; exact ho)
        · rw [mapLookup_insert_ne _ _ _ _ (fun hh => hfm hh.symm)]
          exact ho
      · by_cases htm : e'.to_ = e.to_
        · rw [htm, mapLookup_insert]
          simp only [Option.getD_some]
          exact List.mem_append_left _ (by rw [← htm]; exact hi)
        · rw [mapLookup_insert_ne _ _ _ _ (fun hh => htm hh.symm)]
          exact hi
  · intro n id'' hmem e'' hlk''
    dsimp only at hmem hlk'' ⊢
    by_cases hid : e.id = id''
    · subst hid
      rw [mapLookup_insert] at hlk''
      injection hlk'' with hlk''
      subst hlk''
      by_cases hn : e.from_ = n
      · exact hn
      · exfalso
        rw [mapLookup_insert_ne _ _ _ _ hn] at hmem
        exact idFresh_not_mem_outgoing hfresh n hmem
    · rw [mapLookup_insert_ne _ _ _ _ hid] at hlk''
      by_cases hn : e.from_ = n
      · subst hn
        rw [mapLookup_insert] at hmem
        simp only [Option.getD_some] at hmem
        rcases List.mem_append.mp hmem with hm | hm
        · exact inv2 _ _ hm _ hlk''
        · simp at hm
          exact absurd hm.symm hid
      · rw [mapLookup_insert_ne _ _ _ _ hn] at hmem
        exact inv2 _ _ hmem _ hlk''
  · intro n id'' hmem e'' hlk''
    dsimp only at hmem hlk'' ⊢
    by_cases hid : e.id = id''
    · subst hid
      rw [mapLookup_insert] at hlk''
      injection hlk'' with hlk''
      subst hlk''
      by_cases hn : e.to_ = n
      · exact hn
      · exfalso
        rw [mapLookup_insert_ne _ _ _ _ hn] at hmem
        exact idFresh_not_mem_incoming hfresh n hmem
    · rw [mapLookup_insert_ne _ _ _ _ hid] at hlk''
      by_cases hn : e.to_ = n
      · subst hn
        rw [mapLookup_insert] at hmem
        simp only [Option.getD_some] at hmem
        rcases List.mem_append.mp hmem with hm | hm
        · exact inv3 _ _ hm _ hlk''
        · simp at hm
          exact absurd hm.symm hid
      · rw [mapLookup_insert_ne _ _ _ _ hn] at hmem
        exact inv3 _ _ hmem _ hlk''

theorem adjInv_delete_edge {s s₃ : MemoryStorage} {id : Nat}
    (hInv : AdjacencyInv s) (h : delete_edge s id = .ok s₃) :
    AdjacencyInv s₃ := by
  obtain ⟨inv1, inv2, inv3⟩ := hInv
  cases hlk : mapLookup s.edges id with
  | none =>
      unfold delete_edge at h
      rw [hlk] at h
      exact absurd h (by simp)
  | some edge =>
      obtain ⟨s₃', heq, hn, he, hout, hin⟩ := delete_edge_spec hlk
      rw [heq] at h
      injection h with h
      subst h
      refine ⟨?_, ?_, ?_⟩
      · intro id' e' hlk'
        rw [he] at hlk'
        obtain ⟨hne, hold⟩ := lookup_mapRemove_some hlk'
        obtain ⟨ho, hi⟩ := inv1 id' e' hold
        constructor
        · rw [hout]
          by_cases hfm : e'.from_ = edge.from_
          · rw [if_pos hfm]
            rw [List.mem_filter]
            exact ⟨ho, by simp [hne]⟩
          · rw [if_neg hfm]
            exact ho
        · rw [hin]
          by_cases htm : e'.to_ = edge.to_
          · rw [if_pos htm]
            rw [List.mem_filter]
            exact ⟨hi, by simp [hne]⟩
          · rw [if_neg htm]
            exact hi
      · intro n id'' hmem e'' hlk''
        rw [he] at hlk''
        obtain ⟨hne, hold⟩ := lookup_mapRemove_some hlk''
        rw [hout] at hmem
        by_cases hn2 : n = edge.from_
        · rw [if_pos hn2] at hmem
          exact inv2 _ _ (List.mem_filter.mp hmem).1 _ hold
        · rw [if_neg hn2] at hmem
          exact inv2 _ _ hmem _ hold
      · intro n id'' hmem e'' hlk''
        rw [he] at hlk''
        obtain ⟨hne, hold⟩ := lookup_mapRemove_some hlk''
        rw [hin] at hmem
        by_cases hn2 : n = edge.to_
        · rw [if_pos hn2] at hmem
          exact inv3 _ _ (List.mem_filter.mp hmem).1 _ hold
        · rw [if_neg hn2] at hmem
          exact inv3 _ _ hmem _ hold

theorem adjInv_delete_node {s : MemoryStorage} {id : Nat}
    (hInv : AdjacencyInv s) :
    AdjacencyInv
      ⟨mapRemove s.nodes id,
       removeEdges (removeEdges s.edges ((mapLookup s.outgoing_edges id).getD []))
         ((mapLookup s.incoming_edges id).getD []),
       mapRemove s.outgoing_edges id,
       mapRemove s.incoming_edges id⟩ := by
  obtain ⟨inv1, inv2, inv3⟩ := hInv
  refine ⟨?_, ?_, ?_⟩
  · intro id' e' hlk'
    dsimp only at hlk' ⊢
    obtain ⟨h1, hnotin⟩ := lookup_removeEdges_some hlk'
    obtain ⟨hold, hnotout⟩ := lookup_removeEdges_some h1
    obtain ⟨ho, hi⟩ := inv1 id' e' hold
    constructor
    · by_cases hfm : e'.from_ = id
      · exact absurd (hfm ▸ ho) hnotout
      · rw [mapLookup_remove_ne _ _ _ (fun hh => hfm hh.symm)]
        exact ho
    · by_cases htm : e'.to_ = id
      · exact absurd (htm ▸ hi) hnotin
      · rw [mapLookup_remove_ne _ _ _ (fun hh => htm hh.symm)]
        exact hi
  · intro n id'' hmem e'' hlk''
    dsimp only at hmem hlk'' ⊢
    obtain ⟨h1, -⟩ := lookup_removeEdges_some hlk''
    obtain ⟨hold, -⟩ := lookup_removeEdges_some h1
    by_cases hn : id = n
    · subst hn
      rw [mapLookup_remove_self] at hmem
      exact absurd hmem (by simp)
    · rw [mapLookup_remove_ne _ _ _ hn] at hmem
      exact inv2 _ _ hmem _ hold
  · intro n id'' hmem e'' hlk''
    dsimp only at hmem hlk'' ⊢
    obtain ⟨h1, -⟩ := lookup_removeEdges_some hlk''
    obtain ⟨hold, -⟩ := lookup_removeEdges_some h1
    by_cases hn : id = n
    · subst hn
      rw [mapLookup_remove_self] at hmem
      exact absurd hmem (by simp)
    · rw [mapLookup_remove_ne _ _ _ hn] at hmem
      exact inv3 _ _ hmem _ hold

theorem adjInv_run {ops : List StorageOp} :
    ∀ {s s' : MemoryStorage}, AdjacencyInv s → freshRun s ops = true →
      runOps s ops = some s' → AdjacencyInv s' := by
  induction ops with
  | nil =>
      intro s s' hInv _ hrun
      rw [runOps] at hrun
      injection hrun with hrun
      subst hrun
      exact hInv
  | cons op rest ih =>
      intro s s' hInv hfresh hrun
      simp only [freshRun, Bool.and_eq_true] at hfresh
      obtain ⟨hcond, hrest⟩ := hfresh
      rw [runOps] at hrun
      cases happ : applyOp s op with
      | error err =>
          rw [happ] at hrest
          exact absurd hrest (by simp)
      | ok s₁ =>
          rw [happ] at hrun hrest
          have hInv₁ : AdjacencyInv s₁ := by
            cases op with
            | addNode n =>
                unfold applyOp add_node at happ
                dsimp only at happ
                injection happ with happ
                subst happ
                exact hInv
            | addEdge e =>
                dsimp only at hcond
                by_cases hf : mapContains s.nodes e.from_ = true
                · by_cases ht : mapContains s.nodes e.to_ = true
                  · unfold applyOp at happ
                    dsimp only at happ
                    rw [add_edge_spec hf ht] at happ
                    dsimp only at happ
                    injection happ with happ
                    subst happ
                    exact adjInv_add_edge hInv hcond
                  · unfold applyOp add_edge at happ
                    dsimp only at happ
                    rw [if_neg (by simp [hf]), if_pos ht] at happ
                    simp at happ
                · unfold applyOp add_edge at happ
                  dsimp only at happ
                  rw [if_pos hf] at happ
                  simp at happ
            | deleteEdge id =>
                unfold applyOp at happ
                dsimp only at happ
                exact adjInv_delete_edge hInv happ
            | deleteNode id =>
                unfold applyOp at happ
                dsimp only at happ
                cases hlk : mapLookup s.nodes id with
                | none =>
                    unfold delete_node at happ
                    rw [hlk] at happ
                    simp at happ
                | some nd =>
                    rw [delete_node_spec hlk] at happ
                    injection happ with happ
                    subst happ
                    exact adjInv_delete_node hInv
          exact ih hInv₁ hrest hrun

theorem delete_node_cascade {s s₃ : MemoryStorage} {id : Nat}
    (h : delete_node s id = .ok s₃) :
    ∀ eid, eid ∈ (mapLookup s.outgoing_edges id).getD [] ∨
           eid ∈ (mapLookup s.incoming_edges id).getD [] →
      get_edge s₃ eid = .error (.EdgeNotFound (toString eid)) := by
  cases hlk : mapLookup s.nodes id with
  | none =>
      unfold delete_node at h
      rw [hlk] at h
      simp at h
  | some nd =>
      rw [delete_node_spec hlk] at h
      injection h with h
      subst h
      intro eid hmem
      have hnone : mapLookup
          (removeEdges (removeEdges s.edges ((mapLookup s.outgoing_edges id).getD []))
            ((mapLookup s.incoming_edges id).getD [])) eid = none := by
        rcases hmem with hm | hm
        · exact lookup_removeEdges_none (lookup_removeEdges_mem hm)
        · exact lookup_removeEdges_mem hm
      unfold get_edge
      dsimp only
      rw [hnone]

end MemoryStorage

/-- C3 (counterexample): on nodes 1 and 2 with the single edge 100 from 1
to 2, `delete_node 1` removes the node and cascades the edge out of the edge
store, but leaves the dangling id 100 in node 2's incoming adjacency list:
the edge id does appear in another node's adjacency list, so the adjacency
indices do not contain exactly the stored edges' ids. -/
theorem memory_adjacency_counterexample :
    MemoryStorage.runOps MemoryStorage.new
        [.addNode ⟨1, [], []⟩, .addNode ⟨2, [], []⟩,
         .addEdge ⟨100, 1, 2, "KNOWS", []⟩, .deleteNode 1] =
      some ⟨[(2, ⟨2, [], []⟩)], [], [], [(2, [100])]⟩ ∧
    100 ∈ (mapLookup ([(2, [100])] : List (Nat × List Nat)) 2).getD [] ∧
    mapLookup ([] : List (Nat × Edge)) 100 = none ∧
    MemoryStorage.get_edge ⟨[(2, ⟨2, [], []⟩)], [], [], [(2, [100])]⟩ 100 =
      .error (.EdgeNotFound "100") := by
  refine ⟨rfl, by simp [mapLookup], rfl, rfl⟩

/-- C3 (amended): after any successful sequence of `add_node`, `add_edge`
(with globally fresh edge ids, as UUID generation provides), `delete_edge`
and `delete_node` from the empty storage, every stored edge's id appears in
`outgoing[from]` and `incoming[to]`, and every adjacency entry naming a
stored edge names one with the matching endpoint (exactness up to dangling
ids of deleted edges); and after `delete_node(id)` every cascaded edge —
those listed in `outgoing[id] ∪ incoming[id]` — is NotFound in the edge
store. -/
theorem memory_adjacency_amended :
    (∀ (ops : List StorageOp) (s' : MemoryStorage),
      MemoryStorage.freshRun MemoryStorage.new ops = true →
      MemoryStorage.runOps MemoryStorage.new ops = some s' →
      MemoryStorage.AdjacencyInv s') ∧
    (∀ (s : MemoryStorage) (id : Nat) (s₃ : MemoryStorage),
      MemoryStorage.delete_node s id = .ok s₃ →
      ∀ eid, eid ∈ (mapLookup s.outgoing_edges id).getD [] ∨
             eid ∈ (mapLookup s.incoming_edges id).getD [] →
        MemoryStorage.get_edge s₃ eid = .error (.EdgeNotFound (toString eid))) :=
  ⟨fun _ _ hf hr => MemoryStorage.adjInv_run MemoryStorage.adjInv_new hf hr,
   fun _ _ _ h => MemoryStorage.delete_node_cascade h⟩

/-- C3 witness: the amended invariant and the cascade NotFound at the
concrete four-operation run of the counterexample. -/
theorem memory_adjacency_amended_witness :
    MemoryStorage.AdjacencyInv ⟨[(2, ⟨2, [], []⟩)], [], [], [(2, [100])]⟩ ∧
    MemoryStorage.get_edge
        (⟨[(2, ⟨2, [], []⟩)], [], [], [(2, [100])]⟩ : MemoryStorage) 100 =
      .error (.EdgeNotFound (toString 100)) := by
  constructor
  · exact memory_adjacency_amended.1
      [.addNode ⟨1, [], []⟩, .addNode ⟨2, [], []⟩,
       .addEdge ⟨100, 1, 2, "KNOWS", []⟩, .deleteNode 1]
      ⟨[(2, ⟨2, [], []⟩)], [], [], [(2, [100])]⟩ rfl rfl
  · exact memory_adjacency_amended.2
      ⟨[(1, ⟨1, [], []⟩), (2, ⟨2, [], []⟩)], [(100, ⟨100, 1, 2, "KNOWS", []⟩)],
       [(1, [100])], [(2, [100])]⟩
      1 ⟨[(2, ⟨2, [], []⟩)], [], [], [(2, [100])]⟩ rfl 100
      (Or.inl (by simp [mapLookup]))

/-- C10 (confirmed): `add_node` unconditionally succeeds and returns the
node's own id, inserting (or silently replacing) the entry under that id;
the edge store and both adjacency indices are untouched, and the node count
is unchanged exactly when a node with that id was already stored. -/
theorem add_node_upsert (s : MemoryStorage) (n : Node) :
    MemoryStorage.add_node s n =
      .ok (n.id, { s with nodes := mapInsert s.nodes n.id n }) ∧
    mapLookup (mapInsert s.nodes n.id n) n.id = some n ∧
    ({ s with nodes := mapInsert s.nodes n.id n } : MemoryStorage).edges = s.edges ∧
    ({ s with nodes := mapInsert s.nodes n.id n } : MemoryStorage).outgoing_edges =
      s.outgoing_edges ∧
    ({ s with nodes := mapInsert s.nodes n.id n } : MemoryStorage).incoming_edges =
      s.incoming_edges ∧
    MemoryStorage.node_count { s with nodes := mapInsert s.nodes n.id n } =
      (if mapContains s.nodes n.id then MemoryStorage.node_count s
       else MemoryStorage.node_count s + 1) :=
  ⟨rfl, mapLookup_insert s.nodes n.id n, rfl, rfl, rfl,
   mapInsert_length s.nodes n.id n⟩

/-! ## Theorems: deadlock detector machinery (claim C4) -/

theorem mem_insertNew_self (l : List Nat) (x : Nat) : x ∈ insertNew l x := by
  unfold insertNew
  by_cases h : x ∈ l <;> simp [h]

theorem mem_insertNew_iff {l : List Nat} {x y : Nat} :
    y ∈ insertNew l x ↔ y = x ∨ y ∈ l := by
  unfold insertNew
  by_cases h : x ∈ l
  · simp only [if_pos h]
    constructor
    · exact Or.inr
    · rintro (rfl | hy)
      · exact h
      · exact hy
  · simp [if_neg h]

theorem subset_insertNew (l : List Nat) (x : Nat) : ∀ y ∈ l, y ∈ insertNew l x :=
  fun _ hy => mem_insertNew_iff.mpr (Or.inr hy)

theorem insertNew_nodup {l : List Nat} (h : l.Nodup) (x : Nat) :
    (insertNew l x).Nodup := by
  unfold insertNew
  by_cases hx : x ∈ l
  · simpa [hx] using h
  · rw [if_neg hx]
    exact List.nodup_cons.mpr ⟨hx, h⟩

theorem erase_insertNew_not_mem {l : List Nat} {x : Nat} (hnd : l.Nodup) :
    x ∉ (insertNew l x).erase x := by
  unfold insertNew
  by_cases hx : x ∈ l
  · rw [if_pos hx]
    exact hnd.not_mem_erase
  · rw [if_neg hx, List.erase_cons_head]
    exact hx

theorem adjOf_addWaitEdge_self (g : List (Nat × List Nat)) (t h : Nat) :
    adjOf (DeadlockDetector.addWaitEdge g t h) t = insertNew (adjOf g t) h := by
  unfold DeadlockDetector.addWaitEdge adjOf
  rw [mapLookup_insert]
  rfl

theorem adjOf_addWaitEdge_ne (g : List (Nat × List Nat)) (t h x : Nat) (hx : t ≠ x) :
    adjOf (DeadlockDetector.addWaitEdge g t h) x = adjOf g x := by
  unfold DeadlockDetector.addWaitEdge adjOf
  rw [mapLookup_insert_ne _ _ _ _ hx]

theorem adjOf_mapRemove_subset (g : List (Nat × List Nat)) (t x : Nat) :
    ∀ y ∈ adjOf (mapRemove g t) x, y ∈ adjOf g x := by
  intro y hy
  unfold adjOf at hy
  rcases eq_or_ne x t with rfl | hne
  · rw [mapLookup_remove_self] at hy
    simp at hy
  · rw [mapLookup_remove_ne _ _ _ (Ne.symm hne)] at hy
    exact hy

theorem adjOf_roundtrip_subset (g : List (Nat × List Nat)) (t h x : Nat) :
    ∀ y ∈ adjOf (DeadlockDetector.removeWaitEdge
        (DeadlockDetector.addWaitEdge g t h) t h) x,
      y ∈ adjOf g x := by
  intro y hy
  unfold DeadlockDetector.removeWaitEdge at hy
  rw [show mapLookup (DeadlockDetector.addWaitEdge g t h) t =
      some (insertNew (adjOf g t) h) from mapLookup_insert _ _ _] at hy
  dsimp only at hy
  rcases eq_or_ne x t with rfl | hne
  · unfold adjOf at hy
    rw [mapLookup_insert] at hy
    simp only [Option.getD_some] at hy
    have hy2 := List.mem_of_mem_erase hy
    rcases mem_insertNew_iff.mp hy2 with rfl | hmem
    · -- h itself survived the erase: then h was already in the old set
      unfold insertNew at hy
      by_cases hin : y ∈ (mapLookup g x).getD []
      · exact hin
      · rw [if_neg hin, List.erase_cons_head] at hy
        exact absurd hy hin
    · exact hmem
  · unfold adjOf at hy ⊢
    rw [mapLookup_insert_ne _ _ _ _ (Ne.symm hne)] at hy
    unfold DeadlockDetector.addWaitEdge at hy
    rw [mapLookup_insert_ne _ _ _ _ (Ne.symm hne)] at hy
    exact hy

theorem isPath_subgraph {g g' : List (Nat × List Nat)}
    (hsub : ∀ x, ∀ y ∈ adjOf g' x, y ∈ adjOf g x) :
    ∀ (a : Nat) (l : List Nat) (b : Nat), IsPath g' a l b → IsPath g a l b := by
  intro a l b
  induction l generalizing a with
  | nil => exact fun hp => hsub a b hp
  | cons c cs ih => exact fun hp => ⟨hsub a c hp.1, ih c hp.2⟩

theorem isPath_append (g : List (Nat × List Nat)) (a : Nat) (xs : List Nat)
    (y : Nat) (ys : List Nat) (b : Nat) :
    IsPath g a (xs ++ y :: ys) b ↔ IsPath g a xs y ∧ IsPath g y ys b := by
  induction xs generalizing a with
  | nil => simp [IsPath]
  | cons c cs ih =>
      simp [IsPath, ih, and_assoc]

theorem cycle_rotate {g : List (Nat × List Nat)} {u t : Nat} {l : List Nat}
    (hp : IsPath g u l u) (hmem : t ∈ u :: l) : ∃ l', IsPath g t l' t := by
  rcases List.mem_cons.mp hmem with rfl | hin
  · exact ⟨l, hp⟩
  · obtain ⟨l₁, l₂, rfl⟩ := List.append_of_mem hin
    obtain ⟨h1, h2⟩ := (isPath_append g u l₁ t l₂ u).mp hp
    exact ⟨l₂ ++ u :: l₁, (isPath_append g t l₂ u l₁ t).mpr ⟨h2, h1⟩⟩

theorem isPath_avoid {g : List (Nat × List Nat)} {t h : Nat} :
    ∀ (a : Nat) (l : List Nat) (b : Nat),
      IsPath (DeadlockDetector.addWaitEdge g t h) a l b → t ∉ a :: l →
      IsPath g a l b := by
  intro a l b
  induction l generalizing a with
  | nil =>
      intro hp hna
      have hat : t ≠ a := fun hh => hna (by simp [hh])
      have hp2 : b ∈ adjOf (DeadlockDetector.addWaitEdge g t h) a := hp
      rw [adjOf_addWaitEdge_ne g t h a hat] at hp2
      exact hp2
  | cons c cs ih =>
      intro hp hna
      have hat : t ≠ a := fun hh => hna (by simp [hh])
      refine ⟨?_, ih c hp.2 ?_⟩
      · have hp1 : c ∈ adjOf (DeadlockDetector.addWaitEdge g t h) a := hp.1
        rw [adjOf_addWaitEdge_ne g t h a hat] at hp1
        exact hp1
      · intro hmem
        exact hna (List.mem_cons_of_mem _ hmem)

theorem acyclic_of_subgraph {g g' : List (Nat × List Nat)}
    (hsub : ∀ x, ∀ y ∈ adjOf g' x, y ∈ adjOf g x) (hac : Acyclic g) :
    Acyclic g' :=
  fun t l hp => hac t l (isPath_subgraph hsub t l t hp)

theorem acyclic_nil : Acyclic ([] : List (Nat × List Nat)) := by
  intro t l hp
  cases l with
  | nil => simp [IsPath, adjOf, mapLookup] at hp
  | cons c cs => simp [IsPath, adjOf, mapLookup] at hp

theorem isPath_closed {g : List (Nat × List Nat)} {P : Nat → Prop}
    (hcl : ∀ u, P u → ∀ w ∈ adjOf g u, P w) :
    ∀ (a : Nat) (l : List Nat) (b : Nat), IsPath g a l b → P a → P b := by
  intro a l b
  induction l generalizing a with
  | nil => exact fun hp ha => hcl a ha b hp
  | cons c cs ih => exact fun hp ha => ih c hp.2 (hcl a ha c hp.1)

namespace DeadlockDetector

theorem dfsLoop_mono
    (rec : Nat → List Nat → List Nat → Option (Bool × List Nat × List Nat))
    (hrec : ∀ n v r b v' r', rec n v r = some (b, v', r') → ∀ x ∈ v, x ∈ v') :
    ∀ (ns v r : List Nat) (b : Bool) (v' r' : List Nat),
      dfsNeighborLoop rec ns v r = some (b, v', r') → ∀ x ∈ v, x ∈ v' := by
  intro ns
  induction ns with
  | nil =>
      intro v r b v' r' h x hx
      rw [dfsNeighborLoop] at h
      injection h with h
      cases h
      exact hx
  | cons n ns ih =>
      intro v r b v' r' h x hx
      rw [dfsNeighborLoop] at h
      by_cases hnv : n ∈ v
      · rw [if_neg (by simpa using hnv)] at h
        by_cases hnr : n ∈ r
        · rw [if_pos hnr] at h
          injection h with h
          cases h
          exact hx
        · rw [if_neg hnr] at h
          exact ih v r b v' r' h x hx
      · rw [if_pos hnv] at h
        cases hr : rec n v r with
        | none => rw [hr] at h; exact absurd h (by simp)
        | some res =>
            obtain ⟨b2, v2, r2⟩ := res
            rw [hr] at h
            cases b2 with
            | true =>
                simp only at h
                injection h with h
                cases h
                exact hrec n v r true v' r' hr x hx
            | false =>
                simp only at h
                exact ih v2 r2 b v' r' h x (hrec n v r false v2 r2 hr x hx)

theorem dfs_mono (g : List (Nat × List Nat)) :
    ∀ (fuel node : Nat) (v r : List Nat) (b : Bool) (v' r' : List Nat),
      dfs_cycle_check g fuel node v r = some (b, v', r') → ∀ x ∈ v, x ∈ v' := by
  intro fuel
  induction fuel with
  | zero => intro node v r b v' r' h; rw [dfs_cycle_check] at h; exact absurd h (by simp)
  | succ fuel ih =>
      intro node v r b v' r' h x hx
      rw [dfs_cycle_check] at h
      cases hloop : dfsNeighborLoop (dfs_cycle_check g fuel) (adjOf g node)
          (insertNew v node) (insertNew r node) with
      | none => rw [hloop] at h; exact absurd h (by simp)
      | some res =>
          obtain ⟨b2, v2, r2⟩ := res
          rw [hloop] at h
          have hmem : x ∈ v2 :=
            dfsLoop_mono (dfs_cycle_check g fuel) (ih) _ _ _ _ _ _ hloop x
              (subset_insertNew v node x hx)
          cases b2 with
          | true =>
              simp only at h
              injection h with h
              cases h
              exact hmem
          | false =>
              simp only at h
              injection h with h
              cases h
              exact hmem

theorem unvis_mono {g : List (Nat × List Nat)} {v v2 : List Nat}
    (hsub : ∀ x ∈ v, x ∈ v2) : unvis g v2 ≤ unvis g v := by
  unfold unvis
  rw [← List.countP_eq_length_filter, ← List.countP_eq_length_filter]
  apply List.countP_mono_left
  intro a _ ha
  simp only [decide_eq_true_eq] at ha ⊢
  exact fun hav => ha (hsub a hav)

theorem unvis_insert_lt {g : List (Nat × List Nat)} {v : List Nat} {node : Nat}
    (hns : node ∈ nodeSet g) (hnv : node ∉ v) :
    unvis g (insertNew v node) < unvis g v := by
  unfold unvis
  rw [← List.countP_eq_length_filter, ← List.countP_eq_length_filter]
  obtain ⟨l₁, l₂, hsplit⟩ := List.append_of_mem hns
  rw [hsplit, List.countP_append, List.countP_append, List.countP_cons,
    List.countP_cons]
  have h1 : (decide (node ∉ insertNew v node)) = false := by
    simp [mem_insertNew_self]
  have h2 : (decide (node ∉ v)) = true := by simp [hnv]
  rw [h1, h2]
  have hm : ∀ l : List Nat,
      l.countP (fun x => decide (x ∉ insertNew v node)) ≤
        l.countP (fun x => decide (x ∉ v)) := by
    intro l
    apply List.countP_mono_left
    intro a _ ha
    simp only [decide_eq_true_eq] at ha ⊢
    exact fun hav => ha (subset_insertNew v node a hav)
  have hb1 := hm l₁
  have hb2 := hm l₂
  simp only [Bool.false_eq_true, if_false, if_true]
  omega

theorem adjOf_subset_nodeSet (g : List (Nat × List Nat)) (x : Nat) :
    ∀ y ∈ adjOf g x, y ∈ nodeSet g := by
  intro y hy
  unfold adjOf at hy
  cases hlk : mapLookup g x with
  | none => rw [hlk] at hy; simp at hy
  | some lst =>
      rw [hlk] at hy
      simp only [Option.getD_some] at hy
      unfold nodeSet
      refine List.mem_append_right _ ?_
      rw [List.mem_flatten]
      exact ⟨lst, List.mem_map.mpr ⟨(x, lst), mapLookup_some_mem hlk, rfl⟩, hy⟩

theorem not_mem_nodeSet_adj_nil {g : List (Nat × List Nat)} {x : Nat}
    (h : x ∉ nodeSet g) : adjOf g x = [] := by
  unfold adjOf
  cases hlk : mapLookup g x with
  | none => rfl
  | some lst =>
      exfalso
      apply h
      unfold nodeSet
      refine List.mem_append_left _ ?_
      exact List.mem_map.mpr ⟨(x, lst), mapLookup_some_mem hlk, rfl⟩

theorem dfsLoop_suff
    (rec : Nat → List Nat → List Nat → Option (Bool × List Nat × List Nat))
    {g : List (Nat × List Nat)} {F : Nat}
    (hrecS : ∀ n v r, unvis g v < F → n ∉ v → rec n v r ≠ none)
    (hrecM : ∀ n v r b v' r', rec n v r = some (b, v', r') → ∀ x ∈ v, x ∈ v') :
    ∀ (ns v r : List Nat), unvis g v < F → dfsNeighborLoop rec ns v r ≠ none := by
  intro ns
  induction ns with
  | nil => intro v r _; rw [dfsNeighborLoop]; simp
  | cons n ns ih =>
      intro v r hlt
      rw [dfsNeighborLoop]
      by_cases hnv : n ∈ v
      · rw [if_neg (by simpa using hnv)]
        by_cases hnr : n ∈ r
        · rw [if_pos hnr]; simp
        · rw [if_neg hnr]; exact ih v r hlt
      · rw [if_pos hnv]
        cases hr : rec n v r with
        | none => exact absurd hr (hrecS n v r hlt hnv)
        | some res =>
            obtain ⟨b2, v2, r2⟩ := res
            cases b2 with
            | true => simp
            | false =>
                simp only
                exact ih v2 r2
                  (lt_of_le_of_lt (unvis_mono (hrecM n v r false v2 r2 hr)) hlt)

theorem dfs_suff (g : List (Nat × List Nat)) :
    ∀ (fuel node : Nat) (v r : List Nat), unvis g v < fuel → node ∉ v →
      dfs_cycle_check g fuel node v r ≠ none := by
  intro fuel
  induction fuel with
  | zero => intro node v r hlt; omega
  | succ fuel ih =>
      intro node v r hlt hnv
      rw [dfs_cycle_check]
      by_cases hns : node ∈ nodeSet g
      · have hloop : dfsNeighborLoop (dfs_cycle_check g fuel) (adjOf g node)
            (insertNew v node) (insertNew r node) ≠ none := by
          apply dfsLoop_suff (dfs_cycle_check g fuel)
            (fun n v r hl hn => ih n v r hl hn) (dfs_mono g fuel)
          have := unvis_insert_lt hns hnv
          omega
        cases hl : dfsNeighborLoop (dfs_cycle_check g fuel) (adjOf g node)
            (insertNew v node) (insertNew r node) with
        | none => exact absurd hl hloop
        | some res =>
            obtain ⟨b2, v2, r2⟩ := res
            cases b2 <;> simp
      · rw [not_mem_nodeSet_adj_nil hns]
        rw [dfsNeighborLoop]
        simp

end DeadlockDetector

namespace DeadlockDetector

theorem dfsLoop_inv {g : List (Nat × List Nat)}
    (rec : Nat → List Nat → List Nat → Option (Bool × List Nat × List Nat))
    (hrec : ∀ n v r b v' r', DfsInv g v r → n ∉ v → rec n v r = some (b, v', r') →
      (∀ x ∈ v, x ∈ v') ∧ (b = false → r' = r ∧ n ∈ v' ∧ DfsInv g v' r)) :
    ∀ (ns v r : List Nat) (b : Bool) (v' r' : List Nat), DfsInv g v r →
      dfsNeighborLoop rec ns v r = some (b, v', r') →
      (∀ x ∈ v, x ∈ v') ∧
      (b = false → r' = r ∧ DfsInv g v' r ∧ ∀ n ∈ ns, n ∈ v' ∧ n ∉ r) := by
  intro ns
  induction ns with
  | nil =>
      intro v r b v' r' hInv h
      rw [dfsNeighborLoop] at h
      simp only [Option.some.injEq, Prod.mk.injEq] at h
      obtain ⟨hb, hv, hr⟩ := h
      subst hb
      subst hv
      subst hr
      exact ⟨fun x hx => hx, fun _ => ⟨rfl, hInv, by simp⟩⟩
  | cons n ns ih =>
      intro v r b v' r' hInv h
      rw [dfsNeighborLoop] at h
      by_cases hnv : n ∈ v
      · rw [if_neg (by simpa using hnv)] at h
        by_cases hnr : n ∈ r
        · rw [if_pos hnr] at h
          simp only [Option.some.injEq, Prod.mk.injEq] at h
          obtain ⟨hb, hv, hr⟩ := h
          subst hb
          subst hv
          subst hr
          exact ⟨fun x hx => hx, fun hfalse => absurd hfalse (by simp)⟩
        · rw [if_neg hnr] at h
          obtain ⟨hmono, hfpost⟩ := ih v r b v' r' hInv h
          refine ⟨hmono, fun hb => ?_⟩
          obtain ⟨hr', hInv', hns⟩ := hfpost hb
          refine ⟨hr', hInv', fun m hm => ?_⟩
          rcases List.mem_cons.mp hm with rfl | hm2
          · exact ⟨hmono m hnv, hnr⟩
          · exact hns m hm2
      · rw [if_pos hnv] at h
        cases hr : rec n v r with
        | none => rw [hr] at h; exact absurd h (by simp)
        | some res =>
            obtain ⟨b2, v2, r2⟩ := res
            rw [hr] at h
            obtain ⟨hrecmono, hrecf⟩ := hrec n v r b2 v2 r2 hInv hnv hr
            cases b2 with
            | true =>
                simp only [Option.some.injEq, Prod.mk.injEq] at h
                obtain ⟨hb, hv, hrr⟩ := h
                subst hb
                subst hv
                subst hrr
                exact ⟨hrecmono, fun hfalse => absurd hfalse (by simp)⟩
            | false =>
                simp only at h
                obtain ⟨hr2, hnv2, hInv2⟩ := hrecf rfl
                subst hr2
                obtain ⟨hmono2, hf2⟩ := ih v2 r2 b v' r' hInv2 h
                refine ⟨fun x hx => hmono2 x (hrecmono x hx), fun hb => ?_⟩
                obtain ⟨hr', hInv', hns⟩ := hf2 hb
                refine ⟨hr', hInv', fun m hm => ?_⟩
                rcases List.mem_cons.mp hm with rfl | hm2
                · exact ⟨hmono2 m hnv2, fun hmr => hnv (hInv.1 m hmr)⟩
                · exact hns m hm2

theorem dfs_inv (g : List (Nat × List Nat)) :
    ∀ (fuel node : Nat) (v r : List Nat) (b : Bool) (v' r' : List Nat),
      DfsInv g v r → node ∉ v → dfs_cycle_check g fuel node v r = some (b, v', r') →
      (∀ x ∈ v, x ∈ v') ∧ (b = false → r' = r ∧ node ∈ v' ∧ DfsInv g v' r) := by
  intro fuel
  induction fuel with
  | zero =>
      intro node v r b v' r' _ _ h
      rw [dfs_cycle_check] at h
      exact absurd h (by simp)
  | succ fuel ih =>
      intro node v r b v' r' hInv hnv h
      rw [dfs_cycle_check] at h
      have hnr : node ∉ r := fun hh => hnv (hInv.1 node hh)
      have hInv1 : DfsInv g (insertNew v node) (insertNew r node) := by
        obtain ⟨i1, i2, i3⟩ := hInv
        refine ⟨?_, ?_, ?_⟩
        · intro x hx
          rcases mem_insertNew_iff.mp hx with rfl | hx2
          · exact mem_insertNew_self v x
          · exact subset_insertNew v node x (i1 x hx2)
        · intro u hu hur w hw
          have hu2 : u ∈ v := by
            rcases mem_insertNew_iff.mp hu with rfl | h2
            · exact absurd (mem_insertNew_self r u) hur
            · exact h2
          have hur2 : u ∉ r := fun hh => hur (subset_insertNew r node u hh)
          obtain ⟨hw1, hw2⟩ := i2 u hu2 hur2 w hw
          refine ⟨subset_insertNew v node w hw1, fun hh => ?_⟩
          rcases mem_insertNew_iff.mp hh with rfl | h2
          · exact hnv hw1
          · exact hw2 h2
        · intro u hu hur l
          have hu2 : u ∈ v := by
            rcases mem_insertNew_iff.mp hu with rfl | h2
            · exact absurd (mem_insertNew_self r u) hur
            · exact h2
          have hur2 : u ∉ r := fun hh => hur (subset_insertNew r node u hh)
          exact i3 u hu2 hur2 l
      cases hloop : dfsNeighborLoop (dfs_cycle_check g fuel) (adjOf g node)
          (insertNew v node) (insertNew r node) with
      | none => rw [hloop] at h; exact absurd h (by simp)
      | some res =>
          obtain ⟨b2, v2, r2⟩ := res
          rw [hloop] at h
          obtain ⟨hmono, hfpost⟩ :=
            dfsLoop_inv (dfs_cycle_check g fuel)
              (fun n v r b v' r' hi hn hcall => ih n v r b v' r' hi hn hcall)
              (adjOf g node) (insertNew v node) (insertNew r node) b2 v2 r2 hInv1 hloop
          cases b2 with
          | true =>
              simp only [Option.some.injEq, Prod.mk.injEq] at h
              obtain ⟨hb, hv, hrr⟩ := h
              subst hb
              subst hv
              subst hrr
              exact ⟨fun x hx => hmono x (subset_insertNew v node x hx),
                fun hfalse => absurd hfalse (by simp)⟩
          | false =>
              simp only [Option.some.injEq, Prod.mk.injEq] at h
              obtain ⟨hb, hv, hrr⟩ := h
              subst hb
              subst hv
              subst hrr
              obtain ⟨hr2, hInv2, hns⟩ := hfpost rfl
              subst hr2
              constructor
              · exact fun x hx => hmono x (subset_insertNew v node x hx)
              · intro _
                have herase : (insertNew r node).erase node = r := by
                  unfold insertNew
                  rw [if_neg hnr, List.erase_cons_head]
                refine ⟨herase, hmono node (mem_insertNew_self v node), ?_⟩
                obtain ⟨j1, j2, j3⟩ := hInv2
                have hsubvr : ∀ x ∈ r, x ∈ v2 := fun x hx =>
                  hmono x (subset_insertNew v node x (hInv.1 x hx))
                refine ⟨hsubvr, ?_, ?_⟩
                · intro u hu hur w hw
                  by_cases hun : u = node
                  · subst hun
                    obtain ⟨hw1, hw2⟩ := hns w hw
                    exact ⟨hw1, fun hh => hw2 (subset_insertNew r u w hh)⟩
                  · have hur1 : u ∉ insertNew r node := by
                      intro hh
                      rcases mem_insertNew_iff.mp hh with rfl | h2
                      · exact hun rfl
                      · exact hur h2
                    obtain ⟨hw1, hw2⟩ := j2 u hu hur1 w hw
                    exact ⟨hw1, fun hh => hw2 (subset_insertNew r node w hh)⟩
                · intro u hu hur l hpath
                  by_cases hun : u = node
                  · subst hun
                    have hcl : ∀ w, (w ∈ v2 ∧ w ∉ insertNew r u) →
                        ∀ z ∈ adjOf g w, z ∈ v2 ∧ z ∉ insertNew r u := by
                      intro w hw z hz
                      exact j2 w hw.1 hw.2 z hz
                    cases l with
                    | nil =>
                        obtain ⟨-, h2⟩ := hns u hpath
                        exact h2 (mem_insertNew_self r u)
                    | cons c cs =>
                        obtain ⟨hc, hrest⟩ := hpath
                        have hcP := hns c hc
                        have hend := isPath_closed
                          (P := fun z => z ∈ v2 ∧ z ∉ insertNew r u) hcl c cs u hrest hcP
                        exact hend.2 (mem_insertNew_self r u)
                  · have hur1 : u ∉ insertNew r node := by
                      intro hh
                      rcases mem_insertNew_iff.mp hh with rfl | h2
                      · exact hun rfl
                      · exact hur h2
                    exact j3 u hu hur1 l hpath

theorem has_cycle_correct {g : List (Nat × List Nat)} {start : Nat}
    (h : has_cycle g start = false) : ∀ l, ¬ IsPath g start l start := by
  unfold has_cycle at h
  cases hd : dfs_cycle_check g ((nodeSet g).length + 1) start [] [] with
  | none =>
      exfalso
      refine dfs_suff g ((nodeSet g).length + 1) start [] [] ?_ (by simp) hd
      unfold unvis
      have hfeq : (nodeSet g).filter (fun x => decide (x ∉ ([] : List Nat))) =
          nodeSet g := by
        apply List.filter_eq_self.mpr
        intro a _
        simp
      rw [hfeq]
      omega
  | some res =>
      obtain ⟨b, v', r'⟩ := res
      rw [hd] at h
      dsimp only at h
      have hInvEmpty : DfsInv g [] [] := ⟨by simp, by simp, by simp⟩
      obtain ⟨-, hf⟩ := dfs_inv g ((nodeSet g).length + 1) start [] [] b v' r'
        hInvEmpty (by simp) hd
      obtain ⟨-, hstart, hInv'⟩ := hf h
      intro l hp
      exact hInv'.2.2 start hstart (by simp) l hp

end DeadlockDetector

namespace DeadlockDetector

theorem request_preserves_acyclic {d : DeadlockDetector} {t r : Nat}
    (hac : Acyclic d.wait_for) : Acyclic (d.request_lock t r).1.wait_for := by
  unfold DeadlockDetector.request_lock
  cases hlk : mapLookup d.lock_holders r with
  | none => exact hac
  | some holder =>
      dsimp only
      by_cases hh : holder = t
      · rw [if_pos hh]
        exact hac
      · rw [if_neg hh]
        cases hcyc : has_cycle (addWaitEdge d.wait_for t holder) t with
        | true =>
            rw [if_pos rfl]
            exact acyclic_of_subgraph
              (fun x y hy => adjOf_roundtrip_subset d.wait_for t holder x y hy) hac
        | false =>
            rw [if_neg (by simp [hcyc])]
            intro u l hp
            by_cases hmem : t ∈ u :: l
            · obtain ⟨l', hp'⟩ := cycle_rotate hp hmem
              exact has_cycle_correct hcyc l' hp'
            · exact hac u l (isPath_avoid u l u hp hmem)

theorem applyDOp_preserves_acyclic (d : DeadlockDetector) (op : DOp)
    (hac : Acyclic d.wait_for) : Acyclic (applyDOp d op).wait_for := by
  cases op with
  | request t r => exact request_preserves_acyclic hac
  | release t r => exact hac
  | releaseAll t =>
      exact acyclic_of_subgraph
        (fun x y hy => adjOf_mapRemove_subset d.wait_for t x y hy) hac

theorem applyDOp_preserves_nodup (d : DeadlockDetector) (op : DOp)
    (hnd : NodupAdj d.wait_for) : NodupAdj (applyDOp d op).wait_for := by
  cases op with
  | release t r => exact hnd
  | releaseAll t =>
      intro x
      show (adjOf (mapRemove d.wait_for t) x).Nodup
      by_cases hx : x = t
      · subst hx
        unfold adjOf
        rw [mapLookup_remove_self]
        simp
      · unfold adjOf
        rw [mapLookup_remove_ne _ _ _ (fun hh => hx hh.symm)]
        exact hnd x
  | request t r =>
      show NodupAdj (d.request_lock t r).1.wait_for
      unfold DeadlockDetector.request_lock
      cases hlk : mapLookup d.lock_holders r with
      | none => exact hnd
      | some holder =>
          dsimp only
          by_cases hh : holder = t
          · rw [if_pos hh]
            exact hnd
          · rw [if_neg hh]
            cases hcyc : has_cycle (addWaitEdge d.wait_for t holder) t with
            | true =>
                rw [if_pos rfl]
                intro x
                show (adjOf (removeWaitEdge (addWaitEdge d.wait_for t holder) t holder)
                  x).Nodup
                unfold removeWaitEdge
                rw [show mapLookup (addWaitEdge d.wait_for t holder) t =
                    some (insertNew (adjOf d.wait_for t) holder) from
                  mapLookup_insert _ _ _]
                dsimp only
                by_cases hx : x = t
                · subst hx
                  unfold adjOf
                  rw [mapLookup_insert]
                  simp only [Option.getD_some]
                  exact List.Nodup.erase _ (insertNew_nodup (hnd x) holder)
                · unfold adjOf
                  rw [mapLookup_insert_ne _ _ _ _ (fun hh => hx hh.symm)]
                  unfold addWaitEdge
                  rw [mapLookup_insert_ne _ _ _ _ (fun hh => hx hh.symm)]
                  exact hnd x
            | false =>
                rw [if_neg (by simp [hcyc])]
                intro x
                by_cases hx : x = t
                · subst hx
                  show (adjOf (addWaitEdge d.wait_for x holder) x).Nodup
                  rw [adjOf_addWaitEdge_self]
                  exact insertNew_nodup (hnd x) holder
                · show (adjOf (addWaitEdge d.wait_for t holder) x).Nodup
                  rw [adjOf_addWaitEdge_ne _ _ _ _ (fun hh => hx hh.symm)]
                  exact hnd x

theorem runDetector_invariants (ops : List DOp) :
    Acyclic (runDetector ops).wait_for ∧ NodupAdj (runDetector ops).wait_for := by
  unfold runDetector
  suffices h : ∀ d, Acyclic d.wait_for ∧ NodupAdj d.wait_for →
      Acyclic (ops.foldl applyDOp d).wait_for ∧
        NodupAdj (ops.foldl applyDOp d).wait_for by
    refine h new ⟨acyclic_nil, ?_⟩
    intro t
    simp [adjOf, mapLookup, new]
  induction ops with
  | nil => exact fun d h => h
  | cons op rest ih =>
      rintro d ⟨h1, h2⟩
      exact ih (applyDOp d op)
        ⟨applyDOp_preserves_acyclic d op h1, applyDOp_preserves_nodup d op h2⟩

theorem deadlock_removes_edge {d d' : DeadlockDetector} {t r h : Nat}
    (hnd : NodupAdj d.wait_for)
    (heq : d.request_lock t r = (d', .deadlock t h)) :
    h ∉ adjOf d'.wait_for t := by
  unfold DeadlockDetector.request_lock at heq
  cases hlk : mapLookup d.lock_holders r with
  | none =>
      rw [hlk] at heq
      simp at heq
  | some holder =>
      rw [hlk] at heq
      dsimp only at heq
      by_cases hh : holder = t
      · rw [if_pos hh] at heq
        simp at heq
      · rw [if_neg hh] at heq
        cases hcyc : has_cycle (addWaitEdge d.wait_for t holder) t with
        | false =>
            rw [if_neg (by simp [hcyc])] at heq
            simp at heq
        | true =>
            rw [if_pos hcyc] at heq
            simp only [Prod.mk.injEq] at heq
            obtain ⟨hd', hout⟩ := heq
            injection hout with h1 h2
            subst h2
            subst hd'
            show holder ∉ adjOf
              (removeWaitEdge (addWaitEdge d.wait_for t holder) t holder) t
            unfold removeWaitEdge
            rw [show mapLookup (addWaitEdge d.wait_for t holder) t =
                some (insertNew (adjOf d.wait_for t) holder) from
              mapLookup_insert _ _ _]
            dsimp only
            unfold adjOf
            rw [mapLookup_insert]
            simp only [Option.getD_some]
            exact erase_insertNew_not_mem (hnd t)

end DeadlockDetector

/-- C4 (confirmed): starting from the fresh detector, after any sequence of
`request_lock`, `release_lock` and `release_all_locks`, whatever their
results, the wait-for graph contains no cycle; and whenever `request_lock`
reports a deadlock, the wait-for edge from the requester to the holder has
been removed from the returned state before the error is surfaced (so a
successful — or any — request never leaves a cycle behind). -/
theorem deadlock_detector_no_cycle (ops : List DOp) :
    Acyclic (runDetector ops).wait_for ∧
    (∀ t r d' h, (runDetector ops).request_lock t r = (d', .deadlock t h) →
      h ∉ adjOf d'.wait_for t) := by
  obtain ⟨hac, hnd⟩ := DeadlockDetector.runDetector_invariants ops
  exact ⟨hac, fun t r d' h heq => DeadlockDetector.deadlock_removes_edge hnd heq⟩

/-- C4 witness: the classic two-transaction crossed-lock scenario — T1 holds
R100, T2 holds R200, T1 waits for R200 (contended), and T2's request for
R100 reports a deadlock whose wait-for edge T2 → T1 is not left behind. -/
theorem deadlock_detector_no_cycle_witness :
    1 ∉ adjOf [(1, [2]), (2, ([] : List Nat))] 2 :=
  (deadlock_detector_no_cycle
      [.request 1 100, .request 2 200, .request 1 200]).2 2 100
    ⟨[(1, [2]), (2, [])], [(100, 1), (200, 2)]⟩ 1 rfl

/-! ## Theorems: MVCC visibility (claim C1) -/

theorem is_txn_visible_iff (s : Snapshot) (t : Nat) :
    s.is_txn_visible t = true ↔ (t < s.timestamp ∧ t ∉ s.active_txns) := by
  unfold Snapshot.is_txn_visible
  by_cases h : s.timestamp ≤ t
  · rw [if_pos h]
    constructor
    · intro hf
      exact absurd hf (by simp)
    · rintro ⟨h1, -⟩
      omega
  · rw [if_neg h]
    constructor
    · intro hb
      refine ⟨by omega, fun hm => ?_⟩
      rw [contains_iff_mem.mpr hm] at hb
      exact absurd hb (by simp)
    · rintro ⟨-, h2⟩
      have hc : s.active_txns.contains t = false := by
        cases hcc : s.active_txns.contains t
        · rfl
        · exact absurd (contains_iff_mem.mp hcc) h2
      rw [hc]
      rfl

/-- C1 (counterexample): a version created by transaction 5 at timestamp 150
is visible under the claim's formula for the snapshot `{T := 100, active := ∅}`
(xmin = 5 < 100, not active, never deleted) — and the code's
`Snapshot::is_version_visible` agrees — yet the chain lookup
`VersionChain::get_visible_version`, which uses the timestamp-based
`Version::is_visible`, does not return it: the claimed description of the
chain lookup fails on this input. -/
theorem mvcc_visibility_counterexample :
    specVisibilityFormula ⟨100, []⟩ (⟨0, 5, none, 150, none⟩ : Version Nat) ∧
    Snapshot.is_version_visible ⟨100, []⟩ 5 none = true ∧
    VersionChain.get_visible_version [(⟨0, 5, none, 150, none⟩ : Version Nat)] 100 =
      none := by
  refine ⟨⟨by norm_num, by simp, Or.inl rfl⟩, rfl, rfl⟩

theorem is_version_visible_iff (s : Snapshot) (xmin : Nat) (xmax : Option Nat) :
    Snapshot.is_version_visible s xmin xmax = true ↔
      (xmin < s.timestamp ∧ xmin ∉ s.active_txns ∧
        (xmax = none ∨ ∃ x, xmax = some x ∧ (s.timestamp ≤ x ∨ x ∈ s.active_txns))) := by
  cases xmax with
  | none =>
      simp only [Snapshot.is_version_visible]
      by_cases hmin : s.is_txn_visible xmin = true
      · have hv := (is_txn_visible_iff s xmin).mp hmin
        rw [if_neg (by simp [hmin])]
        simpa using ⟨hv.1, hv.2⟩
      · rw [if_pos (by simpa using hmin)]
        constructor
        · intro hf
          exact absurd hf (by simp)
        · rintro ⟨h1, h2, -⟩
          exact absurd ((is_txn_visible_iff s xmin).mpr ⟨h1, h2⟩) hmin
  | some x =>
      simp only [Snapshot.is_version_visible]
      by_cases hmin : s.is_txn_visible xmin = true
      · have hv := (is_txn_visible_iff s xmin).mp hmin
        rw [if_neg (by simp [hmin])]
        by_cases hx : s.is_txn_visible x = true
        · have hxv := (is_txn_visible_iff s x).mp hx
          rw [if_pos hx]
          constructor
          · intro hf
            exact absurd hf (by simp)
          · rintro ⟨-, -, (hn | ⟨y, hy, hd⟩)⟩
            · exact absurd hn (by simp)
            · have hyx : y = x := by injection hy with h; exact h.symm
              subst hyx
              rcases hd with hd | hd
              · omega
              · exact absurd hd hxv.2
        · have hnx : ¬ (x < s.timestamp ∧ x ∉ s.active_txns) := by
            intro hc
            exact hx ((is_txn_visible_iff s x).mpr hc)
          rw [if_neg hx]
          refine iff_of_true rfl ⟨hv.1, hv.2, Or.inr ⟨x, rfl, ?_⟩⟩
          by_cases hlt : x < s.timestamp
          · push_neg at hnx
            exact Or.inr (hnx hlt)
          · exact Or.inl (by omega)
      · rw [if_pos (by simpa using hmin)]
        constructor
        · intro hf
          exact absurd hf (by simp)
        · rintro ⟨h1, h2, -⟩
          exact absurd ((is_txn_visible_iff s xmin).mpr ⟨h1, h2⟩) hmin

theorem get_visible_version_eq_find (T : Type) (versions : List (Version T)) (ts : Nat) :
    VersionChain.get_visible_version versions ts =
      (versions.find? (fun v => v.is_visible ts)).map Version.data := by
  induction versions with
  | nil => rfl
  | cons v rest ih =>
      cases h : v.is_visible ts with
      | true => simp [VersionChain.get_visible_version, h, List.find?_cons]
      | false => simp [VersionChain.get_visible_version, h, List.find?_cons, ih]

/-- C1 (amended): `Snapshot::is_version_visible` holds exactly when
`xmin < T`, `xmin ∉ active`, and either `xmax = ⊥`, `xmax ≥ T` or
`xmax ∈ active`; and the chain lookup scans newest to oldest returning the
data of the first version passing the timestamp-based `Version::is_visible`
check (`created_at ≤ T` and `deleted_at` absent or `> T`), not the
snapshot's xmin/xmax check. -/
theorem mvcc_visibility_amended (s : Snapshot) (xmin : Nat) (xmax : Option Nat) :
    (Snapshot.is_version_visible s xmin xmax = true ↔
      (xmin < s.timestamp ∧ xmin ∉ s.active_txns ∧
        (xmax = none ∨ ∃ x, xmax = some x ∧ (s.timestamp ≤ x ∨ x ∈ s.active_txns)))) ∧
    (∀ (T : Type) (versions : List (Version T)) (ts : Nat),
      VersionChain.get_visible_version versions ts =
        (versions.find? (fun v => v.is_visible ts)).map Version.data) :=
  ⟨is_version_visible_iff s xmin xmax, get_visible_version_eq_find⟩

/-! ## Theorems: WAL recovery replay (claim C2) -/

namespace WALRecovery

variable {σ : Type}

theorem replay_entry_control (B : StorageBackend σ) (s : σ) (e : WALEntry)
    (h : isDataOp e = false) : replay_entry B s e = .ok s := by
  obtain ⟨lsn, txn, op, ts⟩ := e
  cases op <;> first | rfl | (exfalso; simp [isDataOp] at h)

theorem applyAll_append (B : StorageBackend σ) (l₁ l₂ : List WALEntry) (s : σ) :
    applyAll B (l₁ ++ l₂) s =
      match applyAll B l₁ s with
      | .ok s₁ => applyAll B l₂ s₁
      | .error err => .error err := by
  induction l₁ generalizing s with
  | nil => rfl
  | cons e rest ih =>
      simp only [List.cons_append, applyAll]
      cases replay_entry B s e with
      | ok s₁ => exact ih s₁
      | error err => rfl

theorem replayEntries_eq_applyAll (B : StorageBackend σ) (committed : List Nat)
    (l : List WALEntry) (s : σ) :
    replayEntries B committed l s =
      applyAll B (l.filter (fun e => committed.contains e.txn_id && isDataOp e)) s := by
  induction l generalizing s with
  | nil => rfl
  | cons e rest ih =>
      by_cases hc : e.txn_id ∈ committed
      · have hcb : committed.contains e.txn_id = true := by
          simpa [contains_iff_mem] using hc
        cases hd : isDataOp e with
        | true =>
            simp only [replayEntries, if_pos hc, List.filter_cons, hcb, hd,
              Bool.and_self, if_pos, applyAll]
            cases replay_entry B s e with
            | ok s₁ => exact ih s₁
            | error err => rfl
        | false =>
            simp only [replayEntries, if_pos hc, List.filter_cons, hcb, hd,
              Bool.and_false, if_neg, replay_entry_control B s e hd]
            simpa using ih s
      · have hcb : committed.contains e.txn_id = false := by
          simpa [contains_iff_mem] using hc
        simp only [replayEntries, if_neg hc, List.filter_cons, hcb,
          Bool.false_and]
        simpa using ih s

theorem replaySegments_eq_applyAll (B : StorageBackend σ) (committed : List Nat)
    (segments : List (List WALEntry)) (s : σ) :
    replaySegments B committed segments s =
      applyAll B
        (segments.flatten.filter (fun e => committed.contains e.txn_id && isDataOp e))
        s := by
  induction segments generalizing s with
  | nil => rfl
  | cons seg rest ih =>
      simp only [replaySegments, List.flatten_cons, List.filter_append,
        applyAll_append, replayEntries_eq_applyAll]
      cases applyAll B (seg.filter (fun e => committed.contains e.txn_id && isDataOp e)) s
        with
      | ok s₁ => exact ih s₁
      | error err => rfl

theorem mem_collect_step (e : WALEntry) (acc : List Nat) (t : Nat) :
    (t ∈ (match e.operation with
          | WALOperation.commitTxn =>
              if e.txn_id ∈ acc then acc else e.txn_id :: acc
          | _ => acc)) ↔
      t ∈ acc ∨ (e.txn_id = t ∧ e.operation = WALOperation.commitTxn) := by
  obtain ⟨lsn, txn, op, ts⟩ := e
  cases op <;> simp
  by_cases hin : txn ∈ acc
  · rw [if_pos hin]
    constructor
    · exact Or.inl
    · rintro (h | rfl)
      · exact h
      · exact hin
  · rw [if_neg hin]
    simp only [List.mem_cons]
    constructor
    · rintro (rfl | h)
      · exact Or.inr rfl
      · exact Or.inl h
    · rintro (h | rfl)
      · exact Or.inr h
      · exact Or.inl rfl

theorem mem_collect_entry (seg : List WALEntry) (acc : List Nat) (t : Nat) :
    t ∈ seg.foldl
        (fun acc2 e =>
          match e.operation with
          | .commitTxn => if e.txn_id ∈ acc2 then acc2 else e.txn_id :: acc2
          | _ => acc2)
        acc ↔
      t ∈ acc ∨ ∃ e, e ∈ seg ∧ e.txn_id = t ∧ e.operation = .commitTxn := by
  induction seg generalizing acc with
  | nil => simp
  | cons e rest ih =>
      rw [List.foldl_cons, ih]
      simp only [mem_collect_step, List.mem_cons]
      constructor
      · rintro ((h | ⟨ht, hop⟩) | ⟨e', he', ht, hop⟩)
        · exact Or.inl h
        · exact Or.inr ⟨e, Or.inl rfl, ht, hop⟩
        · exact Or.inr ⟨e', Or.inr he', ht, hop⟩
      · rintro (h | ⟨e', (he' | he'), ht, hop⟩)
        · exact Or.inl (Or.inl h)
        · subst he'
          exact Or.inl (Or.inr ⟨ht, hop⟩)
        · exact Or.inr ⟨e', he', ht, hop⟩

theorem mem_collectCommitted (segments : List (List WALEntry)) (t : Nat) :
    t ∈ collectCommitted segments ↔
      ∃ e, e ∈ segments.flatten ∧ e.txn_id = t ∧ e.operation = .commitTxn := by
  unfold collectCommitted
  suffices h : ∀ acc : List Nat,
      t ∈ segments.foldl
          (fun acc seg => seg.foldl
            (fun acc2 e =>
              match e.operation with
              | .commitTxn => if e.txn_id ∈ acc2 then acc2 else e.txn_id :: acc2
              | _ => acc2)
            acc)
          acc ↔
        t ∈ acc ∨ ∃ e, e ∈ segments.flatten ∧ e.txn_id = t ∧ e.operation = .commitTxn by
    simpa using h []
  induction segments with
  | nil => simp
  | cons seg rest ih =>
      intro acc
      simp only [List.foldl_cons, ih, mem_collect_entry, List.flatten_cons,
        List.mem_append]
      constructor
      · rintro ((h | ⟨e, he, ht, hop⟩) | ⟨e, he, ht, hop⟩)
        · exact Or.inl h
        · exact Or.inr ⟨e, Or.inl he, ht, hop⟩
        · exact Or.inr ⟨e, Or.inr he, ht, hop⟩
      · rintro (h | ⟨e, (he | he), ht, hop⟩)
        · exact Or.inl (Or.inl h)
        · exact Or.inl (Or.inr ⟨e, he, ht, hop⟩)
        · exact Or.inr ⟨e, he, ht, hop⟩

/-- C2 (confirmed): recovery replays, in log order (= LSN order when the
LSNs increase along the log), exactly the data-modifying entries whose
transaction id has a CommitTxn record somewhere in the log; the commit set
is exactly the set of txn ids with a CommitTxn record; control entries
(BeginTxn, CommitTxn, AbortTxn, Checkpoint) never mutate the backend; and
filtering preserves the strictly-increasing LSN order. -/
theorem recovery_replays_committed_data (B : StorageBackend σ)
    (segments : List (List WALEntry)) (s : σ) :
    (recover B segments s = applyAll B (committedDataOps segments) s) ∧
    (∀ e, e ∈ committedDataOps segments →
      isDataOp e = true ∧
        ∃ e', e' ∈ segments.flatten ∧ e'.txn_id = e.txn_id ∧
          e'.operation = .commitTxn) ∧
    (∀ (st : σ) (e : WALEntry), isDataOp e = false → replay_entry B st e = .ok st) ∧
    (∀ t, t ∈ collectCommitted segments ↔
      ∃ e, e ∈ segments.flatten ∧ e.txn_id = t ∧ e.operation = .commitTxn) ∧
    (List.Pairwise (· < ·) (segments.flatten.map WALEntry.lsn) →
      List.Pairwise (· < ·) ((committedDataOps segments).map WALEntry.lsn)) := by
  refine ⟨?_, ?_, ?_, ?_, ?_⟩
  · unfold recover committedDataOps
    exact replaySegments_eq_applyAll B (collectCommitted segments) segments s
  · intro e he
    unfold committedDataOps at he
    rw [List.mem_filter] at he
    rcases he with ⟨hmem, hcond⟩
    rw [Bool.and_eq_true] at hcond
    refine ⟨hcond.2, ?_⟩
    have := (mem_collectCommitted segments e.txn_id).mp
      (by simpa [contains_iff_mem] using hcond.1)
    exact this
  · exact fun st e h => replay_entry_control B st e h
  · exact mem_collectCommitted segments
  · intro h
    exact h.sublist (List.Sublist.map WALEntry.lsn (List.filter_sublist _))

end WALRecovery

/-- C2 witness: the recovery equivalence at a concrete two-segment log with
one committed and one uncommitted transaction. -/
theorem recovery_replays_committed_data_witness :
    (WALRecovery.recover recoveryWitnessBackend recoveryWitnessSegments [] =
      WALRecovery.applyAll recoveryWitnessBackend
        (WALRecovery.committedDataOps recoveryWitnessSegments) []) ∧
    (WALRecovery.isDataOp (⟨2, 1, .insertNode ⟨7, [], []⟩, 0⟩ : WALEntry) = true ∧
      ∃ e', e' ∈ recoveryWitnessSegments.flatten ∧ e'.txn_id = 1 ∧
        e'.operation = .commitTxn) ∧
    List.Pairwise (· < ·)
      ((WALRecovery.committedDataOps recoveryWitnessSegments).map WALEntry.lsn) := by
  have h := WALRecovery.recovery_replays_committed_data recoveryWitnessBackend
    recoveryWitnessSegments []
  exact ⟨h.1, h.2.1 ⟨2, 1, .insertNode ⟨7, [], []⟩, 0⟩ (List.mem_cons_self _ _),
    h.2.2.2.2 (by decide)⟩

/-! ## Theorems: segment decoding and truncation (claim C5) -/

namespace WALRecovery

theorem leNum_u32le (n : Nat) (h : n < 4294967296) : leNum (u32le n) = n := by
  simp only [u32le, leNum]
  omega

/-- C5 (counterexample): a segment whose file ends partway through an entry's
payload — a complete length prefix announcing 2 bytes followed by a single
byte — makes `read_segment` fail with an IO error, for any decoder; the
claim that a truncated trailing entry is treated as end-of-log (no error,
entries so far returned) is false on this input. -/
theorem read_segment_claim_counterexample :
    read_segment (fun _ => none) [2, 0, 0, 0, 9] =
      .error (.IoError "unexpected end of file") := by
  rw [read_segment]
  norm_num [leNum]

/-- C5 (amended): reading stops without error only when the file ends inside
the 4-byte length prefix (fewer than 4 bytes remain); a file ending partway
through an entry's payload after a complete length prefix is an IO error;
a payload the decoder rejects is a storage error; and a complete,
decodable entry is consumed and prepended to the rest of the segment's
entries. -/
theorem read_segment_truncation (d : List Nat → Option WALEntry) :
    (∀ bytes : List Nat, bytes.length < 4 → read_segment d bytes = .ok []) ∧
    (∀ (len : Nat) (payload tail : List Nat) (entry : WALEntry),
      len < 4294967296 → payload.length = len → d payload = some entry →
      read_segment d (u32le len ++ payload ++ tail) =
        match read_segment d tail with
        | .ok es => .ok (entry :: es)
        | .error err => .error err) ∧
    (∀ (len : Nat) (payload : List Nat),
      len < 4294967296 → payload.length < len →
      read_segment d (u32le len ++ payload) =
        .error (.IoError "unexpected end of file")) ∧
    (∀ (len : Nat) (payload tail : List Nat),
      len < 4294967296 → payload.length = len → d payload = none →
      read_segment d (u32le len ++ payload ++ tail) =
        .error (.StorageError "Deserialize error")) := by
  have hlen4 : ∀ n, (u32le n).length = 4 := fun n => rfl
  have htake : ∀ (n : Nat) (rest : List Nat), (u32le n ++ rest).take 4 = u32le n := by
    intro n rest
    rw [show 4 = (u32le n).length from rfl]
    exact List.take_left _ _
  have hdrop : ∀ (n : Nat) (rest : List Nat), (u32le n ++ rest).drop 4 = rest := by
    intro n rest
    rw [show 4 = (u32le n).length from rfl]
    exact List.drop_left _ _
  refine ⟨?_, ?_, ?_, ?_⟩
  · intro bytes h
    rw [read_segment]
    simp [h]
  · intro len payload tail entry hlt hplen hdec
    rw [read_segment]
    rw [List.append_assoc, htake, hdrop, leNum_u32le len hlt]
    have h1 : ¬ (u32le len ++ (payload ++ tail)).length < 4 := by
      simp [List.length_append, hlen4]
    have h2 : ¬ (payload ++ tail).length < len := by
      simp [List.length_append, hplen]
    rw [dif_neg h1, if_neg h2, List.take_left' hplen, hdec,
      List.drop_left' hplen]
  · intro len payload hlt hplen
    rw [read_segment]
    rw [htake, hdrop, leNum_u32le len hlt]
    have h1 : ¬ (u32le len ++ payload).length < 4 := by
      simp [List.length_append, hlen4]
    rw [dif_neg h1, if_pos hplen]
  · intro len payload tail hlt hplen hdec
    rw [read_segment]
    rw [List.append_assoc, htake, hdrop, leNum_u32le len hlt]
    have h1 : ¬ (u32le len ++ (payload ++ tail)).length < 4 := by
      simp [List.length_append, hlen4]
    have h2 : ¬ (payload ++ tail).length < len := by
      simp [List.length_append, hplen]
    rw [dif_neg h1, if_neg h2, List.take_left' hplen, hdec]

/-- C5 witness: the amended truncation behaviour at concrete segments — a
2-byte file is end-of-log; a file announcing a 2-byte payload but holding
one byte is an IO error; a decodable 1-byte entry at the head is consumed;
an undecodable payload is a storage error. -/
theorem read_segment_truncation_witness :
    read_segment (fun _ => none) [1, 2] = .ok [] ∧
    read_segment (fun _ => none) (u32le 2 ++ [9]) =
      .error (.IoError "unexpected end of file") ∧
    read_segment (fun l => if l = [7] then some ⟨1, 1, .beginTxn, 0⟩ else none)
        (u32le 1 ++ [7] ++ []) =
      .ok [⟨1, 1, .beginTxn, 0⟩] ∧
    read_segment (fun _ => none) (u32le 1 ++ [7] ++ []) =
      .error (.StorageError "Deserialize error") := by
  refine ⟨(read_segment_truncation (fun _ => none)).1 [1, 2] (by norm_num),
    (read_segment_truncation (fun _ => none)).2.2.1 2 [9] (by norm_num) (by norm_num),
    ?_, (read_segment_truncation (fun _ => none)).2.2.2 1 [7] [] (by norm_num)
      (by norm_num) rfl⟩
  have h := (read_segment_truncation
      (fun l => if l = [7] then some ⟨1, 1, .beginTxn, 0⟩ else none)).2.1
    1 [7] [] ⟨1, 1, .beginTxn, 0⟩ (by norm_num) (by norm_num) (by norm_num)
  rw [h]
  rw [(read_segment_truncation
      (fun l => if l = [7] then some ⟨1, 1, .beginTxn, 0⟩ else none)).1 []
    (by norm_num)]

end WALRecovery

/-! ## C9: range queries on hash property indices -/

/-- C9: refutation of the claimed error kind. On a manager mapping key
`age` to a hash index, `range_property` fails with a `StorageError` — not
with an error of the `InvalidOperation` kind as claimed — while
`lookup_property` on the same index succeeds. -/
theorem hash_range_error_kind_counterexample :
    IndexManager.range_property hashAgeManager "age" (.integer 0) (.integer 10) =
      .error (.StorageError "Range queries not supported on hash indices") ∧
    isInvalidOperationError
      (IndexManager.range_property hashAgeManager "age" (.integer 0) (.integer 10)) = false ∧
    IndexManager.lookup_property hashAgeManager "age" (.integer 5) = .ok [] :=
  ⟨rfl, rfl, rfl⟩

/-- C9 (amended): for every property key the manager maps to a hash index,
`range_property` fails with the typed error
`StorageError("Range queries not supported on hash indices")` (so never
silently returns rows, but the kind is `StorageError`, not the claimed
`InvalidOperation`), while `lookup_property` on the same index succeeds
with the stored ids. -/
theorem hash_range_rejected_with_storage_error (m : IndexManager) (k name : String)
    (h : HashIndex) (start stop v : PropertyValue)
    (h₁ : mapLookup m.property_indices k = some name)
    (h₂ : mapLookup m.indices name = some (.hash h)) :
    m.range_property k start stop =
      .error (.StorageError "Range queries not supported on hash indices") ∧
    isInvalidOperationError (m.range_property k start stop) = false ∧
    m.lookup_property k v = .ok (h.lookup (property_to_bytes v)) := by
  unfold IndexManager.range_property IndexManager.lookup_property
  rw [h₁]
  dsimp only
  rw [h₂]
  exact ⟨rfl, rfl, rfl⟩

/-- C9 witness: the amended statement at the concrete hash-index manager. -/
theorem hash_range_rejected_with_storage_error_witness :
    IndexManager.range_property hashAgeManager "age" (.integer 0) (.integer 10) =
      .error (.StorageError "Range queries not supported on hash indices") ∧
    isInvalidOperationError
      (IndexManager.range_property hashAgeManager "age" (.integer 0) (.integer 10)) = false ∧
    IndexManager.lookup_property hashAgeManager "age" (.integer 5) =
      .ok (HashIndex.new.lookup (property_to_bytes (.integer 5))) :=
  hash_range_rejected_with_storage_error hashAgeManager "age" "age_index"
    HashIndex.new (.integer 0) (.integer 10) (.integer 5) rfl rfl

/-! ## C8: arithmetic value typing -/

namespace QueryExecutor

/-- C8: the type routing of the executor's arithmetic. Integer–integer
addition, subtraction and multiplication yield integers, and so does
division by a nonzero integer (truncating); any float operand promotes the
result to float (the integer operand cast); string `+` string concatenates;
and all four divisions by a zero divisor return the typed
`InvalidOperation("Division by zero")` error instead of a value. -/
theorem arithmetic_value_types (l r : Int) (x y : Rat) (s t : String) :
    (add_values (.integer l) (.integer r) = .ok (.integer (l + r))) ∧
    (sub_values (.integer l) (.integer r) = .ok (.integer (l - r))) ∧
    (mul_values (.integer l) (.integer r) = .ok (.integer (l * r))) ∧
    (r ≠ 0 → div_values (.integer l) (.integer r) = .ok (.integer (Int.tdiv l r))) ∧
    (add_values (.float x) (.float y) = .ok (.float (x + y))) ∧
    (add_values (.integer l) (.float y) = .ok (.float ((l : Rat) + y))) ∧
    (add_values (.float x) (.integer r) = .ok (.float (x + (r : Rat)))) ∧
    (sub_values (.float x) (.float y) = .ok (.float (x - y))) ∧
    (sub_values (.integer l) (.float y) = .ok (.float ((l : Rat) - y))) ∧
    (sub_values (.float x) (.integer r) = .ok (.float (x - (r : Rat)))) ∧
    (mul_values (.float x) (.float y) = .ok (.float (x * y))) ∧
    (mul_values (.integer l) (.float y) = .ok (.float ((l : Rat) * y))) ∧
    (mul_values (.float x) (.integer r) = .ok (.float (x * (r : Rat)))) ∧
    (y ≠ 0 → div_values (.float x) (.float y) = .ok (.float (x / y))) ∧
    (y ≠ 0 → div_values (.integer l) (.float y) = .ok (.float ((l : Rat) / y))) ∧
    (r ≠ 0 → div_values (.float x) (.integer r) = .ok (.float (x / (r : Rat)))) ∧
    (add_values (.string s) (.string t) = .ok (.string (s ++ t))) ∧
    (div_values (.integer l) (.integer 0) =
      .error (.InvalidOperation "Division by zero")) ∧
    (div_values (.float x) (.float 0) =
      .error (.InvalidOperation "Division by zero")) ∧
    (div_values (.integer l) (.float 0) =
      .error (.InvalidOperation "Division by zero")) ∧
    (div_values (.float x) (.integer 0) =
      .error (.InvalidOperation "Division by zero")) := by
  refine ⟨rfl, rfl, rfl, fun h => by simp [div_values, h], rfl, rfl, rfl, rfl, rfl,
    rfl, rfl, rfl, rfl, fun h => by simp [div_values, h],
    fun h => by simp [div_values, h], fun h => by simp [div_values, h], rfl,
    by simp [div_values], by simp [div_values], by simp [div_values],
    by simp [div_values]⟩

/-- C8 witness: the divisor hypotheses discharged at concrete operands. -/
theorem arithmetic_value_types_witness :
    div_values (.integer 7) (.integer 2) = .ok (.integer (Int.tdiv 7 2)) ∧
    div_values (.float 1) (.float 2) = .ok (.float (1 / 2)) ∧
    div_values (.integer 7) (.float 2) = .ok (.float (((7 : Int) : Rat) / 2)) ∧
    div_values (.float 1) (.integer 2) = .ok (.float (1 / ((2 : Int) : Rat))) := by
  obtain ⟨h1, h2, h3, h4, h5, h6, h7, h8, h9, h10, h11, h12, h13, h14, h15, h16,
    h17, h18, h19, h20, h21⟩ := arithmetic_value_types 7 2 1 2 "a" "b"
  exact ⟨h4 (by decide), h14 (by decide), h15 (by decide), h16 (by decide)⟩

end QueryExecutor

/-! ## C6: b-tree range queries over little-endian integer keys -/

theorem natToLeBytes_length (k n : Nat) : (natToLeBytes k n).length = k := by
  induction k generalizing n with
  | zero => rfl
  | succ k ih => simp [natToLeBytes, ih]

theorem natToLeBytes_zero (k : Nat) : natToLeBytes k 0 = List.replicate k 0 := by
  induction k with
  | zero => rfl
  | succ k ih => simp [natToLeBytes, ih, List.replicate_succ]

theorem natToLeBytes_small {n : Nat} (k : Nat) (h : n < 256) :
    natToLeBytes (k + 1) n = n :: List.replicate k 0 := by
  unfold natToLeBytes
  rw [Nat.mod_eq_of_lt h, Nat.div_eq_of_lt h, natToLeBytes_zero]

theorem leNum_natToLeBytes {k n : Nat} (h : n < 256 ^ k) :
    leNum (natToLeBytes k n) = n := by
  induction k generalizing n with
  | zero =>
      have h0 : n = 0 := by simpa using h
      subst h0
      rfl
  | succ k ih =>
      unfold natToLeBytes leNum
      rw [ih (by rw [Nat.div_lt_iff_lt_mul (by norm_num)]; rw [pow_succ] at h; omega)]
      omega

theorem lexLe_self_append (l r : List Nat) : lexLe l (l ++ r) = true := by
  induction l with
  | nil => rfl
  | cons a as ih => simp [lexLe, ih]

theorem lexLt_append_left (l r : List Nat) : lexLt (l ++ r) l = false := by
  induction l with
  | nil => cases r with
    | nil => rfl
    | cons x xs => rfl
  | cons a as ih => simp [lexLt, ih]

theorem lexLe_cons (a b : Nat) (xs ys : List Nat) :
    lexLe (a :: xs) (b :: ys) =
      if a < b then true else if b < a then false else lexLe xs ys := rfl

theorem lexLt_cons (a b : Nat) (xs ys : List Nat) :
    lexLt (a :: xs) (b :: ys) =
      if a < b then true else if b < a then false else lexLt xs ys := rfl

theorem lexLe_bytes {a b : Nat} (tail : List Nat) :
    (lexLe (a :: List.replicate 7 0) (b :: (List.replicate 7 0 ++ tail)) = true) ↔
      a ≤ b := by
  rw [lexLe_cons]
  rcases lt_trichotomy a b with h | rfl | h
  · rw [if_pos h]
    simp
    omega
  · rw [if_neg (lt_irrefl a), if_neg (lt_irrefl a), lexLe_self_append]
    simp
  · rw [if_neg (by omega : ¬a < b), if_pos h]
    simp
    omega

theorem lexLt_bytes {a b : Nat} (tail : List Nat) :
    (lexLt (a :: (List.replicate 7 0 ++ tail)) (b :: List.replicate 7 0) = true) ↔
      a < b := by
  rw [lexLt_cons]
  rcases lt_trichotomy a b with h | rfl | h
  · rw [if_pos h]
    simp
    omega
  · rw [if_neg (lt_irrefl a), if_neg (lt_irrefl a), lexLt_append_left]
    simp
  · rw [if_neg (by omega : ¬a < b), if_pos h]
    simp
    omega

theorem i64le_small {v : Int} (h0 : 0 ≤ v) (h : v < 256) :
    i64le v = v.toNat :: List.replicate 7 0 := by
  unfold i64le
  rw [Int.emod_eq_of_lt h0 (by omega)]
  exact natToLeBytes_small 7 (by omega)

theorem i64le_length (v : Int) : (i64le v).length = 8 :=
  natToLeBytes_length 8 _

theorem encodeId16_length (id : Nat) : (encodeId16 id).length = 16 :=
  natToLeBytes_length 16 id

theorem decode_encodeId16 {id : Nat} (h : id < 2 ^ 128) :
    BTreeIndex.decode_node_id (encodeId16 id) = some id := by
  unfold BTreeIndex.decode_node_id
  rw [if_pos (encodeId16_length id)]
  unfold encodeId16
  have h256 : (256 : Nat) ^ 16 = 2 ^ 128 := by norm_num
  rw [leNum_natToLeBytes (by omega)]

/-- The node-id extraction of `BTreeIndex::range`, applied to a composite
key built from an 8-byte integer key, recovers the trailing 16-byte id. -/
theorem range_extract_i64 (v : Int) (i : Nat) :
    (if 16 ≤ (i64le v ++ encodeId16 i).length then
      BTreeIndex.decode_node_id
        ((i64le v ++ encodeId16 i).drop ((i64le v ++ encodeId16 i).length - 16))
     else none) = BTreeIndex.decode_node_id (encodeId16 i) := by
  have hlen : (i64le v ++ encodeId16 i).length = 24 := by
    rw [List.length_append, i64le_length, encodeId16_length]
  have hdrop : (i64le v ++ encodeId16 i).drop ((i64le v ++ encodeId16 i).length - 16) =
      encodeId16 i := by
    rw [hlen, show (24 - 16 : Nat) = (i64le v).length from by rw [i64le_length]]
    exact List.drop_left _ _
  rw [if_pos (by rw [hlen]; norm_num), hdrop]

theorem mem_insert_tree (idx : BTreeIndex) (key : List Nat) (v : Nat) (ck : List Nat) :
    ck ∈ (idx.insert key v).tree ↔ ck = BTreeIndex.make_key key v ∨ ck ∈ idx.tree := by
  unfold BTreeIndex.insert
  by_cases hmem : BTreeIndex.make_key key v ∈ idx.tree
  · rw [if_pos hmem]
    constructor
    · exact Or.inr
    · rintro (rfl | hck)
      · exact hmem
      · exact hck
  · rw [if_neg hmem]
    exact List.mem_cons

theorem mem_buildBTree (pairs : List (Int × Nat)) (ck : List Nat) :
    ck ∈ (buildBTree pairs).tree ↔
      ∃ p ∈ pairs, ck = i64le p.1 ++ encodeId16 p.2 := by
  have aux : ∀ (qs : List (Int × Nat)) (b : BTreeIndex),
      ck ∈ (qs.foldl (fun acc p => acc.insert (i64le p.1) p.2) b).tree ↔
        ck ∈ b.tree ∨ ∃ p ∈ qs, ck = i64le p.1 ++ encodeId16 p.2 := by
    intro qs
    induction qs with
    | nil => intro b; simp
    | cons q qs ih =>
        intro b
        rw [List.foldl_cons, ih, mem_insert_tree]
        simp only [List.exists_mem_cons_iff, BTreeIndex.make_key]
        tauto
  unfold buildBTree
  rw [aux pairs BTreeIndex.new_temp]
  simp [BTreeIndex.new_temp]

theorem mem_range_iff (idx : BTreeIndex) (start stop : List Nat) (id : Nat) :
    id ∈ idx.range start stop ↔
      ∃ ck ∈ idx.tree, (lexLe start ck && lexLt ck stop) = true ∧
        (if 16 ≤ ck.length then BTreeIndex.decode_node_id (ck.drop (ck.length - 16))
         else none) = some id := by
  unfold BTreeIndex.range
  rw [List.mem_filterMap]
  constructor
  · rintro ⟨ck, hmem, hf⟩
    rw [List.mem_filter] at hmem
    exact ⟨ck, hmem.1, hmem.2, hf⟩
  · rintro ⟨ck, hmem, hcond, hf⟩
    exact ⟨ck, List.mem_filter.mpr ⟨hmem, hcond⟩, hf⟩

/-- C6: refutation of the numeric-range reading. With the value 256 indexed
for node 1 under key `age`, the byte-lexicographic range scan for
`[Integer(0), Integer(2))` returns node 1 — because the little-endian bytes
of 256 are `[0, 1, 0, ...]`, which sort below those of 2 — although 256
lies far outside the numeric half-open interval `[0, 2)`. -/
theorem btree_range_le_counterexample :
    IndexManager.range_property btreeRangeManager "age" (.integer 0) (.integer 2) =
      .ok [1] ∧
    ¬((0 : Int) ≤ 256 ∧ (256 : Int) < 2) := by
  exact ⟨rfl, by decide⟩

/-- C6 (amended): `range_property` on a b-tree property index runs the
byte-lexicographic sled range scan over `property_to_bytes` images; for
little-endian `i64` keys this agrees with the claimed numeric half-open
range only on restricted domains — here proved when every indexed value and
both bounds lie in `[0, 256)` (a single little-endian byte): then node `id`
is returned iff some pair `(v, id)` was inserted with `s ≤ v < e`. -/
theorem btree_range_byte_semantics :
    (∀ (m : IndexManager) (k name : String) (b : BTreeIndex)
        (start stop : PropertyValue),
      mapLookup m.property_indices k = some name →
      mapLookup m.indices name = some (.btree b) →
      m.range_property k start stop =
        .ok (b.range (property_to_bytes start) (property_to_bytes stop))) ∧
    (∀ (pairs : List (Int × Nat)) (s e : Int) (id : Nat),
      (∀ p ∈ pairs, 0 ≤ p.1 ∧ p.1 < 256 ∧ p.2 < 2 ^ 128) →
      0 ≤ s → s < 256 → 0 ≤ e → e < 256 →
      (id ∈ (buildBTree pairs).range (i64le s) (i64le e) ↔
        ∃ v, (v, id) ∈ pairs ∧ s ≤ v ∧ v < e)) := by
  constructor
  · intro m k name b start stop h₁ h₂
    unfold IndexManager.range_property
    rw [h₁]
    dsimp only
    rw [h₂]
  · intro pairs s e id hp hs0 hs he0 he
    rw [mem_range_iff]
    constructor
    · rintro ⟨ck, hcktree, hcond, hdec⟩
      rw [mem_buildBTree] at hcktree
      obtain ⟨⟨v, i⟩, hpmem, rfl⟩ := hcktree
      obtain ⟨hv0, hv256, hi128⟩ := hp (v, i) hpmem
      rw [range_extract_i64, decode_encodeId16 hi128] at hdec
      have hid : i = id := Option.some.inj hdec
      subst hid
      rw [i64le_small hs0 hs, i64le_small he0 he, i64le_small hv0 hv256,
        List.cons_append, Bool.and_eq_true] at hcond
      obtain ⟨h1, h2⟩ := hcond
      rw [lexLe_bytes] at h1
      rw [lexLt_bytes] at h2
      exact ⟨v, hpmem, by omega, by omega⟩
    · rintro ⟨v, hvmem, hsv, hve⟩
      obtain ⟨hv0, hv256, hid128⟩ := hp (v, id) hvmem
      refine ⟨i64le v ++ encodeId16 id, ?_, ?_, ?_⟩
      · rw [mem_buildBTree]
        exact ⟨(v, id), hvmem, rfl⟩
      · rw [i64le_small hs0 hs, i64le_small he0 he, i64le_small hv0 hv256,
          List.cons_append, Bool.and_eq_true]
        exact ⟨(lexLe_bytes _).mpr (by omega), (lexLt_bytes _).mpr (by omega)⟩
      · rw [range_extract_i64, decode_encodeId16 hid128]

/-- C6 witness: the dispatch equation at the concrete b-tree manager, and
the restricted numeric equivalence at values 10/20/30 with bounds
`[15, 25)`, where node 2 (value 20) is in range. -/
theorem btree_range_byte_semantics_witness :
    (IndexManager.range_property btreeRangeManager "age" (.integer 0) (.integer 2) =
      .ok ((BTreeIndex.new_temp.insert (i64le 256) 1).range
        (property_to_bytes (.integer 0)) (property_to_bytes (.integer 2)))) ∧
    (2 ∈ (buildBTree [((10 : Int), (1 : Nat)), (20, 2), (30, 3)]).range
        (i64le 15) (i64le 25) ↔
      ∃ v, (v, 2) ∈ [((10 : Int), (1 : Nat)), (20, 2), (30, 3)] ∧ 15 ≤ v ∧ v < 25) :=
  ⟨btree_range_byte_semantics.1 btreeRangeManager "age" "age_index"
      (BTreeIndex.new_temp.insert (i64le 256) 1) (.integer 0) (.integer 2) rfl rfl,
   btree_range_byte_semantics.2 [((10 : Int), (1 : Nat)), (20, 2), (30, 3)] 15 25 2
      (by decide) (by decide) (by decide) (by decide) (by decide)⟩

/-! ## C7: the Filter operator's keep condition -/

namespace QueryExecutor

/-- C7: refutation of "non-boolean predicate values drop the row". A
predicate evaluating to the non-boolean value `Integer(5)` hits the
truthiness catch-all, the predicate evaluation returns `Ok(true)`, and the
filter keeps the row. -/
theorem filter_truthiness_counterexample :
    evaluate_value (.literal (.integer 5)) [("x", PropertyValue.null)] =
      .ok (.integer 5) ∧
    evaluate_predicate (.literal (.integer 5)) [("x", PropertyValue.null)] =
      .ok true ∧
    execute_filter (.literal (.integer 5)) [[("x", PropertyValue.null)]] =
      [[("x", PropertyValue.null)]] :=
  ⟨rfl, rfl, rfl⟩

/-- C7 (amended): a row is kept by the filter iff `evaluate_predicate`
returns `Ok(true)` on it (so `Ok(false)` and errors drop the row); but for
every expression outside the dedicated logical/comparison branches,
`evaluate_predicate` coerces the evaluated value by truthiness — `Boolean b`
gives `b` and `Null` gives `false`, while every other value is treated as
`true`, so rows with non-boolean non-null predicate values are kept, not
dropped as claimed. -/
theorem filter_keeps_iff_predicate_true :
    (∀ (predicate : Expression) (rows : List Row) (row : Row),
      row ∈ execute_filter predicate rows ↔
        row ∈ rows ∧ evaluate_predicate predicate row = .ok true) ∧
    (∀ (e : Expression) (row : Row) (val : PropertyValue),
      isCompound e = false →
      evaluate_value e row = .ok val →
      evaluate_predicate e row = .ok (truthiness val)) := by
  constructor
  · intro predicate rows row
    unfold execute_filter
    rw [List.mem_filter]
    refine and_congr_right fun _ => ?_
    cases h : evaluate_predicate predicate row with
    | ok b => cases b <;> simp
    | error err => simp
  · intro e row val hnc hval
    cases e <;> first
      | (simp only [evaluate_predicate]; rw [hval])
      | simp [isCompound] at hnc

/-- C7 witness: the amended characterisation at a concrete predicate, row
set and value. -/
theorem filter_keeps_iff_predicate_true_witness :
    ([("x", PropertyValue.null)] ∈
        execute_filter (.literal (.integer 5)) [[("x", PropertyValue.null)]] ↔
      [("x", PropertyValue.null)] ∈ [[("x", PropertyValue.null)]] ∧
        evaluate_predicate (.literal (.integer 5)) [("x", PropertyValue.null)] =
          .ok true) ∧
    evaluate_predicate (.literal (.integer 5)) [] =
      .ok (truthiness (.integer 5)) :=
  ⟨filter_keeps_iff_predicate_true.1 (.literal (.integer 5))
      [[("x", PropertyValue.null)]] [("x", PropertyValue.null)],
   filter_keeps_iff_predicate_true.2 (.literal (.integer 5)) [] (.integer 5)
      rfl rfl⟩

end QueryExecutor

end DeepGraph
